import Mathlib

/-!
Verification of the import-path rewriter (`fix_json_imports.py`) and the
directory-structure dumper (`print_structure.py`) of this repository.

Strings are modelled as lists of characters (`List Char`); paths follow the
POSIX lexical conventions used by `os.path` (`abspath`, `dirname`, `relpath`,
`normpath`): a path string is split at `'/'` into components, absolute paths
are normalised by dropping empty and `.` components and resolving `..`
against the accumulated stack.  The regular-expression search in
`update_file` is embedded as an executable lazy matcher equivalent to
`require\((['"])([^'"]*?)medicaid_rules_2025\.json(['"])\)` together with a
left-to-right non-overlapping scan (`re.finditer`) and Python's
`str.replace` (all occurrences, left to right).
-/

/-- The apostrophe character (single quote). -/
def squote : Char := Char.ofNat 39

/-- The double-quote character. -/
def dquote : Char := Char.ofNat 34

/-- The backslash character. -/
def bslash : Char := Char.ofNat 92

/-- Split a string (list of characters) at `'/'`, Python `str.split('/')`:
the result always has one more component than there are separators. -/
def splitComps : List Char → List (List Char)
  | [] => [[]]
  | c :: cs =>
    if c = '/' then [] :: splitComps cs
    else
      match splitComps cs with
      | h :: tl => (c :: h) :: tl
      | [] => [[c]]

/-- Join components with `'/'` (posix `os.sep.join`). -/
def joinComps : List (List Char) → List Char
  | [] => []
  | [c] => c
  | c :: cs => c ++ '/' :: joinComps cs

/-- The component `..`. -/
def dotdot : List Char := ['.', '.']

/-- The component `.` (posix `curdir`). -/
def dotc : List Char := ['.']

/-- One step of posix `normpath` on an absolute path: empty and `.`
components are dropped, `..` pops the last accumulated component (at the
root it pops nothing), anything else is pushed. -/
def normStep (acc : List (List Char)) (c : List Char) : List (List Char) :=
  if c = [] ∨ c = dotc then acc
  else if c = dotdot then acc.dropLast
  else acc ++ [c]

/-- Component list of `normpath` of an absolute path given by its raw
component list. -/
def normParts (l : List (List Char)) : List (List Char) :=
  l.foldl normStep []

/-- Whether a path string is absolute (posix: starts with `'/'`). -/
def isAbsPath (s : List Char) : Bool :=
  match s with
  | c :: _ => c = '/'
  | [] => false

/-- Component list of `os.path.abspath(p)` relative to the current working
directory `cwd` (itself a path string): `normpath(join(cwd, p))`, where an
already absolute `p` ignores `cwd`. -/
def abspathComps (cwd p : List Char) : List (List Char) :=
  if isAbsPath p then normParts (splitComps p)
  else normParts (splitComps cwd ++ splitComps p)

/-- Length of the longest common prefix of two component lists
(`os.path.commonprefix` on split lists). -/
def commonLead : List (List Char) → List (List Char) → Nat
  | a :: as, b :: bs => if a = b then commonLead as bs + 1 else 0
  | _, _ => 0

/-- Component list of `os.path.relpath(path, start)` for two absolute
normalised component lists (posixpath: `..` for each uncommon component of
`start`, then the uncommon tail of `path`; `.` if the result is empty). -/
def relpathComps (pathC startC : List (List Char)) : List (List Char) :=
  if List.replicate (startC.length - commonLead startC pathC) dotdot ++
      pathC.drop (commonLead startC pathC) = [] then [dotc]
  else
    List.replicate (startC.length - commonLead startC pathC) dotdot ++
      pathC.drop (commonLead startC pathC)

/-- Python `str.replace('\\', '/')`: every backslash becomes a forward
slash. -/
def replaceBackslash (s : List Char) : List Char :=
  s.map (fun c => if c = bslash then '/' else c)

/-- `calculate_relative_path(from_file, to_file)` from
`fix_json_imports.py`, with the implicit current working directory made
explicit: `relpath(abspath(to_file), start=dirname(abspath(from_file)))`
joined with `'/'` and with backslashes replaced by forward slashes. -/
def calculate_relative_path (cwd from_file to_file : List Char) : List Char :=
  replaceBackslash (joinComps (relpathComps (abspathComps cwd to_file)
    ((abspathComps cwd from_file).dropLast)))

/-- Lexical resolution of a relative path string against a directory given
by its absolute normalised component list: `normpath(join(dir, rel))`. -/
def resolveAgainst (dirComps : List (List Char)) (rel : List Char) :
    List (List Char) :=
  normParts (dirComps ++ splitComps rel)

/-- The quote character class `['"]` of the pattern in `update_file`. -/
def isQuote (c : Char) : Bool := c = squote || c = dquote

/-- The configured constant `target_filename = 'medicaid_rules_2025.json'`. -/
def targetFilename : List Char := ("medicaid_rules_2025.json").data

/-- The literal head `require(` of the pattern. -/
def requireOpen : List Char := ("require(").data

/-- A match of the pattern
`require\((['"])([^'"]*?)medicaid_rules_2025\.json(['"])\)`:
opening quote (group 1), lazy quote-free middle (group 2), closing quote
(group 3). -/
structure RMatch where
  q1 : Char
  mid : List Char
  q3 : Char
deriving DecidableEq, Repr

/-- The full matched substring (`match.group(0)`). -/
def fullStr (m : RMatch) : List Char :=
  requireOpen ++ m.q1 :: (m.mid ++ targetFilename ++ [m.q3, ')'])

/-- Attempt to finish a match right here: the target filename followed by a
quote and `)`.  Returns the closing quote and the rest of the input. -/
def checkEnd (s : List Char) : Option (Char × List Char) :=
  if targetFilename.isPrefixOf s then
    match s.drop targetFilename.length with
    | q :: c :: rest => if isQuote q && c = ')' then some (q, rest) else none
    | _ => none
  else none

/-- Lazy scan for group 2 (`[^'"]*?`): at each position first try to finish
the match (shortest middle wins), otherwise consume one non-quote character
into the middle; a quote or the end of input fails the whole attempt. -/
def findClose : List Char → Option (List Char × Char × List Char)
  | [] => none
  | c :: cs =>
    match checkEnd (c :: cs) with
    | some (q, rest) => some ([], q, rest)
    | none =>
      if isQuote c then none
      else
        match findClose cs with
        | some (mid, q, rest) => some (c :: mid, q, rest)
        | none => none

/-- Try to match the pattern at the start of `s`; on success return the
match and the remaining input after it. -/
def matchAt (s : List Char) : Option (RMatch × List Char) :=
  if requireOpen.isPrefixOf s then
    match s.drop requireOpen.length with
    | q1 :: s' =>
      if isQuote q1 then
        match findClose s' with
        | some (mid, q3, rest) => some (⟨q1, mid, q3⟩, rest)
        | none => none
      else none
    | [] => none
  else none

/-- Left-to-right non-overlapping scan (`re.finditer`): try to match at
every position; after a match, resume right after it.  The fuel argument
(always at least the length of the input) makes the recursion structural. -/
def findIterGo : Nat → List Char → Nat → List (Nat × RMatch)
  | 0, _, _ => []
  | fuel + 1, s, i =>
    match matchAt s with
    | some (m, rest) => (i, m) :: findIterGo fuel rest (i + (fullStr m).length)
    | none =>
      match s with
      | [] => []
      | _ :: cs => findIterGo fuel cs (i + 1)

/-- All matches of the pattern in `content`, with their start positions
(`list(pattern.finditer(content))`). -/
def finditer (s : List Char) : List (Nat × RMatch) :=
  findIterGo s.length s 0

/-- One fuelled step list of Python `str.replace(old, new)`: replace every
non-overlapping occurrence of `old`, scanning left to right. -/
def replaceAllGo (old new : List Char) : Nat → List Char → List Char
  | 0, s => s
  | _ + 1, [] => []
  | fuel + 1, c :: cs =>
    if old.isPrefixOf (c :: cs) then
      new ++ replaceAllGo old new fuel ((c :: cs).drop old.length)
    else c :: replaceAllGo old new fuel cs

/-- Python `s.replace(old, new)` (for nonempty `old`). -/
def pyReplace (s old new : List Char) : List Char :=
  replaceAllGo old new s.length s

/-- The replacement text `f"require('{new_rel_path}')"` built in the loop
of `update_file` for one match: `new_rel_path` is recomputed per match as
`calculate_relative_path(file_path, correct_json_path)`, so the match's own
groups (old path, quote characters) are not used. -/
def replacementFor (cwd file_path correct_json_path : List Char)
    (_ : RMatch) : List Char :=
  requireOpen ++ squote ::
    (calculate_relative_path cwd file_path correct_json_path ++ [squote, ')'])

/-- The content transformation and write decision of `update_file`: find
all matches; if there is none, the content is untouched and no write
happens (`false`); otherwise every match's full string is replaced (each
via `str.replace`, i.e. all its occurrences) by the replacement call and
the file is written (`true`). -/
def update_file (cwd file_path correct_json_path content : List Char) :
    List Char × Bool :=
  let ms := finditer content
  if ms.isEmpty then (content, false)
  else
    (ms.foldl
      (fun acc pm =>
        pyReplace acc (fullStr pm.2)
          (replacementFor cwd file_path correct_json_path pm.2))
      content, true)

/-- Just the rewritten content of `update_file`. -/
def contentAfter (cwd file_path correct_json_path content : List Char) :
    List Char :=
  (update_file cwd file_path correct_json_path content).1

/-- `file.endswith('.js') or file.endswith('.ts')` from
`scan_and_update_files`. -/
def endsJsTs (name : List Char) : Bool :=
  (".js").data.isSuffixOf name || (".ts").data.isSuffixOf name

/-- `os.path.join(root, name)` for a root that does not end in a slash. -/
def joinPath (root name : List Char) : List Char :=
  root ++ '/' :: name

/-- A filesystem tree for the scan: a file carries the outcome of reading
it (`Except`) and whether writing it would succeed; a directory carries its
children in `os.walk` listing order. -/
inductive FTree where
  | file (name : List Char) (readRes : Except Unit (List Char)) (writeOk : Bool)
  | dir (name : List Char) (children : List FTree)

/-- Run `update_file` on one file node of the tree, given the flag of
whether the run is still alive (`ok = false` means an earlier exception
already terminated the run and this file is not touched).  A read failure,
or a write failure when a write is due, aborts the run. -/
def processFile (cwd correct_json_path fpath name : List Char)
    (readRes : Except Unit (List Char)) (writeOk : Bool) (ok : Bool) :
    FTree × Bool :=
  if ok then
    if endsJsTs name then
      match readRes with
      | Except.error e => (FTree.file name (Except.error e) writeOk, false)
      | Except.ok content =>
        let res := update_file cwd fpath correct_json_path content
        if res.2 then
          if writeOk then (FTree.file name (Except.ok res.1) writeOk, true)
          else (FTree.file name (Except.ok content) writeOk, false)
        else (FTree.file name (Except.ok content) writeOk, true)
    else (FTree.file name readRes writeOk, ok)
  else (FTree.file name readRes writeOk, false)

/-- Merge the two passes over a directory's children: file nodes from the
first (file) pass, directory nodes from the second (recursion) pass. -/
def mergeChildren : List FTree → List FTree → List FTree
  | c1 :: r1, c2 :: r2 =>
    (match c1 with
     | FTree.dir _ _ => c2
     | f => f) :: mergeChildren r1 r2
  | _, _ => []

mutual
/-- `scan_and_update_files` restricted to the subtree rooted at a node
whose path is `curPath`: `os.walk` yields each directory top-down, first
processing the files directly inside it, then recursing into its
subdirectories in order; the boolean threads "no exception so far". -/
def scanTree (cwd correct_json_path curPath : List Char) (t : FTree)
    (ok : Bool) : FTree × Bool :=
  match t with
  | FTree.file n r w => (FTree.file n r w, ok)
  | FTree.dir n ch =>
    let fr := scanFilesList cwd correct_json_path curPath ch ok
    let dr := scanDirsList cwd correct_json_path curPath ch fr.2
    (FTree.dir n (mergeChildren fr.1 dr.1), dr.2)

/-- First pass over a directory's children: process the `.js`/`.ts` files
in listing order, leave directory nodes alone. -/
def scanFilesList (cwd correct_json_path curPath : List Char)
    (l : List FTree) (ok : Bool) : List FTree × Bool :=
  match l with
  | [] => ([], ok)
  | FTree.file n r w :: rest =>
    let pr := processFile cwd correct_json_path (joinPath curPath n) n r w ok
    let rr := scanFilesList cwd correct_json_path curPath rest pr.2
    (pr.1 :: rr.1, rr.2)
  | d :: rest =>
    let rr := scanFilesList cwd correct_json_path curPath rest ok
    (d :: rr.1, rr.2)

/-- Second pass over a directory's children: recurse into subdirectories
in listing order, leave file nodes alone. -/
def scanDirsList (cwd correct_json_path curPath : List Char)
    (l : List FTree) (ok : Bool) : List FTree × Bool :=
  match l with
  | [] => ([], ok)
  | FTree.dir n ch :: rest =>
    let dr := scanTree cwd correct_json_path (joinPath curPath n)
      (FTree.dir n ch) ok
    let rr := scanDirsList cwd correct_json_path curPath rest dr.2
    (dr.1 :: rr.1, rr.2)
  | f :: rest =>
    let rr := scanDirsList cwd correct_json_path curPath rest ok
    (f :: rr.1, rr.2)
end

/-- `scan_and_update_files(base_dir, correct_json_path)` on the tree rooted
at `base_dir`: the boolean of the result tells whether the run reached its
end (and hence whether the completion message is printed afterwards). -/
def scan_and_update_files (cwd correct_json_path base_dir : List Char)
    (t : FTree) : FTree × Bool :=
  scanTree cwd correct_json_path base_dir t true

mutual
/-- Reference description of an error-free run: every `.js`/`.ts` file's
content is rewritten by `update_file`'s transformation, every other file
is untouched. -/
def rewriteTree (cwd correct_json_path curPath : List Char) : FTree → FTree
  | FTree.file n r w =>
    if endsJsTs n then
      match r with
      | Except.ok c =>
        FTree.file n
          (Except.ok (contentAfter cwd (joinPath curPath n) correct_json_path c)) w
      | e => FTree.file n e w
    else FTree.file n r w
  | FTree.dir n ch => FTree.dir n (rewriteList cwd correct_json_path curPath ch)

/-- `rewriteTree` over a directory's children (each child sees the
directory's path extended by its own name). -/
def rewriteList (cwd correct_json_path curPath : List Char) :
    List FTree → List FTree
  | [] => []
  | FTree.file n r w :: rest =>
    rewriteTree cwd correct_json_path curPath (FTree.file n r w)
      :: rewriteList cwd correct_json_path curPath rest
  | FTree.dir n ch :: rest =>
    rewriteTree cwd correct_json_path (joinPath curPath n) (FTree.dir n ch)
      :: rewriteList cwd correct_json_path curPath rest
end

mutual
/-- Every `.js`/`.ts` file of the tree is readable and writable (the
error-free-run hypothesis). -/
def allJsTsOk : FTree → Bool
  | FTree.file n r w =>
    if endsJsTs n then
      match r with
      | Except.ok _ => w
      | Except.error _ => false
    else true
  | FTree.dir _ ch => allJsTsOkList ch

/-- `allJsTsOk` over a list of children. -/
def allJsTsOkList : List FTree → Bool
  | [] => true
  | c :: cs => allJsTsOk c && allJsTsOkList cs
end

mutual
/-- The second tree has the same shape and names as the first and agrees
with it on every non-`.js`/`.ts` file node (such files are never read or
modified by the scan). -/
def agreesOutsideJsTs : FTree → FTree → Prop
  | FTree.file n r w, t' =>
    if endsJsTs n then ∃ r' w', t' = FTree.file n r' w'
    else t' = FTree.file n r w
  | FTree.dir n ch, t' => ∃ ch', t' = FTree.dir n ch' ∧ agreesListOutsideJsTs ch ch'

/-- `agreesOutsideJsTs` over children lists. -/
def agreesListOutsideJsTs : List FTree → List FTree → Prop
  | [], l' => l' = []
  | c :: cs, l' => ∃ c' cs', l' = c' :: cs' ∧ agreesOutsideJsTs c c' ∧
      agreesListOutsideJsTs cs cs'
end

/-- A directory tree as seen by `print_structure.py`: a directory has a
name, the names of the files directly inside it, and its subdirectories,
in `os.walk` listing order. -/
inductive PTree where
  | node (name : List Char) (files : List (List Char)) (subdirs : List PTree)

/-- The indentation unit `'│   '` of `print_tree`. -/
def indentUnit : List Char := ("│   ").data

/-- The branch marker `'├── '` of `print_tree`. -/
def branchMark : List Char := ("├── ").data

/-- `'│   ' * d`. -/
def indentOf (d : Nat) : List Char :=
  (List.replicate d indentUnit).flatten

mutual
/-- The lines `print_tree` writes while walking a directory at depth `d`
(depth counted in separators below the start path): below `max_depth` the
directory line and its file lines are written and the walk descends;
otherwise nothing is written and `dirs[:] = []` prunes the descent. -/
def printTreeGo (maxDepth d : Nat) : PTree → List (List Char)
  | PTree.node n fs subs =>
    if d < maxDepth then
      (indentOf d ++ branchMark ++ n ++ ['/'])
        :: (fs.map (fun f => indentOf (d + 1) ++ f)
            ++ printTreeList maxDepth (d + 1) subs)
    else []

/-- `printTreeGo` over a list of sibling subdirectories. -/
def printTreeList (maxDepth d : Nat) : List PTree → List (List Char)
  | [] => []
  | t :: ts => printTreeGo maxDepth d t ++ printTreeList maxDepth d ts
end

/-- The whole output of `print_tree(startpath, max_depth)`: the start
directory is at depth 0. -/
def print_tree (maxDepth : Nat) (t : PTree) : List (List Char) :=
  printTreeGo maxDepth 0 t

mutual
/-- Reference description of the output: walk the whole tree without any
pruning and keep exactly the lines of directories at depth strictly less
than `max_depth`, together with the files directly inside them. -/
def visibleGo (maxDepth d : Nat) : PTree → List (List Char)
  | PTree.node n fs subs =>
    (if d < maxDepth then
      (indentOf d ++ branchMark ++ n ++ ['/'])
        :: fs.map (fun f => indentOf (d + 1) ++ f)
     else [])
      ++ visibleList maxDepth (d + 1) subs

/-- `visibleGo` over a list of sibling subdirectories. -/
def visibleList (maxDepth d : Nat) : List PTree → List (List Char)
  | [] => []
  | t :: ts => visibleGo maxDepth d t ++ visibleList maxDepth d ts
end

/-- A normalised path component: nonempty and neither `.` nor `..` (what
`normpath` leaves in an absolute path). -/
def goodComp (c : List Char) : Prop :=
  c ≠ [] ∧ c ≠ dotc ∧ c ≠ dotdot

/-- Well-formedness of a match as produced by the matcher: both quotes are
quote characters and the middle (group 2) is quote-free. -/
def matchWF (m : RMatch) : Prop :=
  isQuote m.q1 = true ∧ isQuote m.q3 = true ∧ ∀ c ∈ m.mid, isQuote c = false

/-- Reassemble content from the scan's view: gap text then matched
substring for each match, and the text after the last match. -/
def chunks : List (List Char × RMatch) → List Char → List Char
  | [], tail => tail
  | (u, m) :: ps, tail => u ++ fullStr m ++ chunks ps tail

/-- The same assembly with every matched substring replaced by `r`. -/
def chunksWith (r : List Char) :
    List (List Char × RMatch) → List Char → List Char
  | [], tail => tail
  | (u, _) :: ps, tail => u ++ r ++ chunksWith r ps tail

/-- Intermediate state of the replacement loop of `update_file`: the
matches whose full strings are in `done` are already replaced by `r`, the
others are still intact. -/
def chunksUpTo (r : List Char) (done : List (List Char)) :
    List (List Char × RMatch) → List Char → List Char
  | [], tail => tail
  | (u, m) :: ps, tail =>
    u ++ (if fullStr m ∈ done then r else fullStr m) ++ chunksUpTo r done ps tail

/-- No position strictly inside a gap of the scan decomposition, nor any
position in the final text, matches the pattern. -/
def GapsFail : List (List Char × RMatch) → List Char → Prop
  | [], tail => ∀ v w : List Char, tail = v ++ w → matchAt w = none
  | (u, m) :: ps, tail =>
    (∀ v w : List Char, u = v ++ w → w ≠ [] →
      matchAt (w ++ fullStr m ++ chunks ps tail) = none) ∧ GapsFail ps tail

/-! ## Theorems -/

mutual
theorem visibleGo_nil_of_le : ∀ (maxDepth d : Nat) (t : PTree), maxDepth ≤ d →
    visibleGo maxDepth d t = []
  | maxDepth, d, PTree.node n fs subs, h => by
    rw [visibleGo, if_neg (Nat.not_lt.2 h), List.nil_append]
    exact visibleList_nil_of_le maxDepth (d + 1) subs (Nat.le_succ_of_le h)

theorem visibleList_nil_of_le : ∀ (maxDepth d : Nat) (l : List PTree), maxDepth ≤ d →
    visibleList maxDepth d l = []
  | _, _, [], _ => rfl
  | maxDepth, d, t :: ts, h => by
    rw [visibleList, visibleGo_nil_of_le maxDepth d t h,
      visibleList_nil_of_le maxDepth d ts h, List.nil_append]
end

mutual
theorem printTreeGo_eq_visibleGo : ∀ (maxDepth d : Nat) (t : PTree),
    printTreeGo maxDepth d t = visibleGo maxDepth d t
  | maxDepth, d, PTree.node n fs subs => by
    by_cases h : d < maxDepth
    · rw [printTreeGo, visibleGo, if_pos h, if_pos h,
        printTreeList_eq_visibleList maxDepth (d + 1) subs]
      simp [List.cons_append, List.append_assoc]
    · rw [printTreeGo, visibleGo, if_neg h, if_neg h, List.nil_append]
      exact (visibleList_nil_of_le maxDepth (d + 1) subs
        (Nat.le_succ_of_le (Nat.not_lt.1 h))).symm

theorem printTreeList_eq_visibleList : ∀ (maxDepth d : Nat) (l : List PTree),
    printTreeList maxDepth d l = visibleList maxDepth d l
  | _, _, [] => rfl
  | maxDepth, d, t :: ts => by
    rw [printTreeList, visibleList, printTreeGo_eq_visibleGo maxDepth d t,
      printTreeList_eq_visibleList maxDepth d ts]
end

/-- C10: `print_tree` writes a line exactly for the directories whose depth
below the start path is strictly less than `max_depth`, together with the
files directly inside them; clearing the traversal's subdirectory list at
depth `max_depth` loses nothing else: the output equals the depth-filtered
unpruned walk, so no directory or file at or below that depth appears. -/
theorem print_tree_eq_depth_filtered_walk : ∀ (maxDepth : Nat) (t : PTree),
    print_tree maxDepth t = visibleGo maxDepth 0 t := by
  intro maxDepth t
  unfold print_tree
  exact printTreeGo_eq_visibleGo maxDepth 0 t

/-- C6: the string returned by `calculate_relative_path` never contains a
backslash; every backslash produced by the host path arithmetic is replaced
by a forward slash. -/
theorem calculate_relative_path_no_backslash :
    ∀ (cwd from_file to_file : List Char),
      bslash ∉ calculate_relative_path cwd from_file to_file := by
  intro cwd ff tf h
  simp only [calculate_relative_path, replaceBackslash] at h
  rcases List.mem_map.1 h with ⟨c, _, hc⟩
  by_cases hcb : c = bslash
  · rw [if_pos hcb] at hc
    exact (by decide : ¬ ('/' : Char) = bslash) hc
  · rw [if_neg hcb] at hc
    exact hcb hc

/-- C5: the two quote characters of the pattern are matched independently:
the concrete input `require("medicaid_rules_2025.json')`, whose opening and
closing quotes differ, is still matched (as one whole match with group 1 a
double quote and group 3 a single quote). -/
theorem pattern_accepts_mismatched_quotes :
    finditer (requireOpen ++ dquote :: (targetFilename ++ [squote, ')'])) =
      [(0, ⟨dquote, [], squote⟩)] ∧ dquote ≠ squote := by
  exact ⟨by decide, by decide⟩

/-- C3: if the content has no match, `update_file` performs no write and
returns the content unchanged; and a write happens if and only if at least
one match is found. -/
theorem update_file_frame :
    ∀ (cwd file_path correct_json_path content : List Char),
      (finditer content = [] →
        update_file cwd file_path correct_json_path content = (content, false)) ∧
      ((update_file cwd file_path correct_json_path content).2 = true ↔
        finditer content ≠ []) := by
  intro cwd fp tp content
  constructor
  · intro h
    simp [update_file, h]
  · cases h : finditer content <;> simp [update_file, h]

theorem update_file_frame_witness :
    finditer (("hello").data) = [] ∧
      update_file [] [] [] (("hello").data) = ((("hello").data), false) :=
  ⟨by decide, (update_file_frame [] [] [] (("hello").data)).1 (by decide)⟩

/-- C9: the replacement text used for a match depends only on the file and
target locations, never on the match's own groups: any two matches in one
file receive the identical replacement, which is the reference-loading call
with single quotes around the computed relative path (so double-quoted
references are normalised to single quotes). -/
theorem replacement_independent_of_match :
    ∀ (cwd file_path correct_json_path : List Char) (m m' : RMatch),
      replacementFor cwd file_path correct_json_path m =
        replacementFor cwd file_path correct_json_path m' ∧
      replacementFor cwd file_path correct_json_path m =
        requireOpen ++ squote ::
          (calculate_relative_path cwd file_path correct_json_path ++
            [squote, ')']) := by
  intro cwd fp tp m m'
  exact ⟨rfl, rfl⟩

theorem splitComps_ne_nil : ∀ s : List Char, splitComps s ≠ []
  | [] => by simp [splitComps]
  | c :: cs => by
    rw [splitComps]
    by_cases h : c = '/'
    · simp [h]
    · rw [if_neg h]
      cases hs : splitComps cs with
      | nil => simp
      | cons a as => simp

theorem splitComps_append_slash : ∀ a b : List Char,
    splitComps (a ++ '/' :: b) = splitComps a ++ splitComps b
  | [], b => by simp [splitComps]
  | c :: cs, b => by
    have ih := splitComps_append_slash cs b
    by_cases h : c = '/'
    · rw [List.cons_append, splitComps, if_pos h, ih, splitComps, if_pos h,
        List.cons_append]
    · cases hs : splitComps cs with
      | nil => exact absurd hs (splitComps_ne_nil cs)
      | cons a as =>
        rw [List.cons_append, splitComps, if_neg h, ih, hs, splitComps,
          if_neg h, hs]
        simp

theorem mem_splitComps_no_slash : ∀ (s : List Char) (c : List Char),
    c ∈ splitComps s → '/' ∉ c
  | [], c, hc => by
    simp [splitComps] at hc
    simp [hc]
  | x :: xs, c, hc => by
    rw [splitComps] at hc
    by_cases h : x = '/'
    · rw [if_pos h, List.mem_cons] at hc
      rcases hc with hc | hc
      · simp [hc]
      · exact mem_splitComps_no_slash xs c hc
    · rw [if_neg h] at hc
      cases hs : splitComps xs with
      | nil => exact absurd hs (splitComps_ne_nil xs)
      | cons a as =>
        rw [hs, List.mem_cons] at hc
        rcases hc with hc | hc
        · intro hmem
          rw [hc, List.mem_cons] at hmem
          rcases hmem with hmem | hmem
          · exact h hmem.symm
          · exact mem_splitComps_no_slash xs a (hs ▸ List.mem_cons_self a as) hmem
        · exact mem_splitComps_no_slash xs c (hs ▸ List.mem_cons_of_mem a hc)

theorem mem_splitComps_chars : ∀ (s : List Char) (c : List Char) (x : Char),
    c ∈ splitComps s → x ∈ c → x ∈ s
  | [], c, x, hc, hx => by
    simp [splitComps] at hc
    rw [hc] at hx
    exact absurd hx (List.not_mem_nil x)
  | y :: ys, c, x, hc, hx => by
    rw [splitComps] at hc
    by_cases h : y = '/'
    · rw [if_pos h, List.mem_cons] at hc
      rcases hc with hc | hc
      · rw [hc] at hx
        exact absurd hx (List.not_mem_nil x)
      · exact List.mem_cons_of_mem y (mem_splitComps_chars ys c x hc hx)
    · rw [if_neg h] at hc
      cases hs : splitComps ys with
      | nil => exact absurd hs (splitComps_ne_nil ys)
      | cons a as =>
        rw [hs, List.mem_cons] at hc
        rcases hc with hc | hc
        · rw [hc, List.mem_cons] at hx
          rcases hx with hx | hx
          · exact hx ▸ List.mem_cons_self y ys
          · exact List.mem_cons_of_mem y
              (mem_splitComps_chars ys a x (hs ▸ List.mem_cons_self a as) hx)
        · exact List.mem_cons_of_mem y
            (mem_splitComps_chars ys c x (hs ▸ List.mem_cons_of_mem a hc) hx)

theorem foldl_normStep_good : ∀ (l : List (List Char)) (acc : List (List Char)),
    (∀ c ∈ l, goodComp c) → List.foldl normStep acc l = acc ++ l
  | [], acc, _ => by simp
  | c :: cs, acc, h => by
    have hc := h c (List.mem_cons_self c cs)
    rw [List.foldl_cons, normStep, if_neg, if_neg hc.2.2,
      foldl_normStep_good cs (acc ++ [c]) (fun d hd => h d (List.mem_cons_of_mem c hd))]
    · simp
    · rintro (h1 | h2)
      · exact hc.1 h1
      · exact hc.2.1 h2

theorem foldl_normStep_mem : ∀ (l : List (List Char)) (acc : List (List Char))
    (x : List Char), x ∈ List.foldl normStep acc l → x ∈ acc ∨ x ∈ l
  | [], acc, x, h => Or.inl (by simpa using h)
  | c :: cs, acc, x, h => by
    rw [List.foldl_cons] at h
    rcases foldl_normStep_mem cs (normStep acc c) x h with h' | h'
    · rw [normStep] at h'
      by_cases h1 : c = [] ∨ c = dotc
      · rw [if_pos h1] at h'
        exact Or.inl h'
      · rw [if_neg h1] at h'
        by_cases h2 : c = dotdot
        · rw [if_pos h2] at h'
          exact Or.inl (List.dropLast_subset _ h')
        · rw [if_neg h2] at h'
          rcases List.mem_append.1 h' with h3 | h3
          · exact Or.inl h3
          · exact Or.inr (by simpa using Or.inl (by simpa using h3))
    · exact Or.inr (List.mem_cons_of_mem c h')

theorem foldl_normStep_good_out : ∀ (l : List (List Char)) (acc : List (List Char)),
    (∀ c ∈ acc, goodComp c) → ∀ x ∈ List.foldl normStep acc l, goodComp x
  | [], acc, hacc, x, hx => hacc x (by simpa using hx)
  | c :: cs, acc, hacc, x, hx => by
    rw [List.foldl_cons] at hx
    refine foldl_normStep_good_out cs (normStep acc c) ?_ x hx
    intro d hd
    rw [normStep] at hd
    by_cases h1 : c = [] ∨ c = dotc
    · rw [if_pos h1] at hd
      exact hacc d hd
    · rw [if_neg h1] at hd
      by_cases h2 : c = dotdot
      · rw [if_pos h2] at hd
        exact hacc d (List.dropLast_subset _ hd)
      · rw [if_neg h2] at hd
        rcases List.mem_append.1 hd with h3 | h3
        · exact hacc d h3
        · have : d = c := by simpa using h3
          subst this
          exact ⟨fun h => h1 (Or.inl h), fun h => h1 (Or.inr h), h2⟩

theorem normParts_good (l : List (List Char)) :
    ∀ x ∈ normParts l, goodComp x :=
  foldl_normStep_good_out l [] (by simp)

theorem normParts_of_good (l : List (List Char)) (h : ∀ c ∈ l, goodComp c) :
    normParts l = l := by
  rw [normParts, foldl_normStep_good l [] h, List.nil_append]

theorem foldl_normStep_replicate : ∀ (k : Nat) (A : List (List Char)),
    List.foldl normStep A (List.replicate k dotdot) = A.take (A.length - k)
  | 0, A => by simp
  | k + 1, A => by
    rw [List.replicate_succ, List.foldl_cons, normStep, if_neg, if_pos rfl,
      foldl_normStep_replicate k A.dropLast, List.dropLast_eq_take,
      List.take_take, List.length_take]
    · congr 1
      omega
    · rintro (h1 | h2)
      · exact absurd h1 (by decide)
      · exact absurd h2 (by decide)

theorem commonLead_le : ∀ a b : List (List Char), commonLead a b ≤ a.length
  | [], _ => by simp [commonLead]
  | _ :: _, [] => by simp [commonLead]
  | x :: xs, y :: ys => by
    rw [commonLead]
    by_cases h : x = y
    · rw [if_pos h, List.length_cons]
      exact Nat.succ_le_succ (commonLead_le xs ys)
    · rw [if_neg h]
      exact Nat.zero_le _

theorem take_commonLead : ∀ a b : List (List Char),
    a.take (commonLead a b) = b.take (commonLead a b)
  | [], b => by simp [commonLead]
  | _ :: _, [] => by simp [commonLead]
  | x :: xs, y :: ys => by
    rw [commonLead]
    by_cases h : x = y
    · rw [if_pos h, List.take_succ_cons, List.take_succ_cons, h,
        take_commonLead xs ys]
    · rw [if_neg h]
      simp

theorem splitComps_no_slash (s : List Char) (h : '/' ∉ s) :
    splitComps s = [s] := by
  induction s with
  | nil => rfl
  | cons c cs ih =>
    rw [splitComps, if_neg (fun hc => h (by simp [hc])),
      ih (fun hc => h (List.mem_cons_of_mem c hc))]

theorem joinComps_cons_cons (c c' : List Char) (cs : List (List Char)) :
    joinComps (c :: c' :: cs) = c ++ '/' :: joinComps (c' :: cs) :=
  rfl

theorem splitComps_joinComps : ∀ l : List (List Char), l ≠ [] →
    (∀ c ∈ l, '/' ∉ c) → splitComps (joinComps l) = l
  | [], h, _ => absurd rfl h
  | [c], _, h => by
    rw [joinComps, splitComps_no_slash c (h c (List.mem_cons_self c []))]
  | c :: c' :: cs, _, h => by
    rw [joinComps_cons_cons, splitComps_append_slash,
      splitComps_no_slash c (h c (List.mem_cons_self c (c' :: cs))),
      splitComps_joinComps (c' :: cs) (List.cons_ne_nil c' cs)
        (fun d hd => h d (List.mem_cons_of_mem c hd))]
    rfl

theorem mem_joinComps : ∀ (l : List (List Char)) (x : Char),
    x ∈ joinComps l → x = '/' ∨ ∃ c ∈ l, x ∈ c
  | [], x, hx => absurd hx (List.not_mem_nil x)
  | [c], x, hx => Or.inr ⟨c, List.mem_cons_self c [], by rwa [joinComps] at hx⟩
  | c :: c' :: cs, x, hx => by
    rw [joinComps_cons_cons] at hx
    rcases List.mem_append.1 hx with h1 | h1
    · exact Or.inr ⟨c, List.mem_cons_self c (c' :: cs), h1⟩
    · rcases List.mem_cons.1 h1 with h2 | h2
      · exact Or.inl h2
      · rcases mem_joinComps (c' :: cs) x h2 with h3 | ⟨d, hd, hxd⟩
        · exact Or.inl h3
        · exact Or.inr ⟨d, List.mem_cons_of_mem c hd, hxd⟩

theorem replaceBackslash_of_not_mem (s : List Char) (h : bslash ∉ s) :
    replaceBackslash s = s := by
  induction s with
  | nil => rfl
  | cons c cs ih =>
    rw [replaceBackslash, List.map_cons,
      if_neg (fun hc => h (by simp [hc]))]
    rw [replaceBackslash] at ih
    rw [ih (fun hc => h (List.mem_cons_of_mem c hc))]

theorem relpathComps_ne_nil (B A : List (List Char)) :
    relpathComps B A ≠ [] := by
  rw [relpathComps]
  by_cases h : List.replicate (A.length - commonLead A B) dotdot ++
      B.drop (commonLead A B) = ([] : List (List Char))
  · simp only [h, if_pos rfl]
    simp
  · simp only [if_neg h]
    exact h

theorem mem_relpathComps (B A : List (List Char)) (c : List Char)
    (hc : c ∈ relpathComps B A) : c = dotc ∨ c = dotdot ∨ c ∈ B := by
  rw [relpathComps] at hc
  by_cases h : List.replicate (A.length - commonLead A B) dotdot ++
      B.drop (commonLead A B) = ([] : List (List Char))
  · simp only [h, if_pos rfl] at hc
    exact Or.inl (by simpa using hc)
  · simp only [if_neg h] at hc
    rcases List.mem_append.1 hc with h1 | h1
    · exact Or.inr (Or.inl (List.eq_of_mem_replicate h1))
    · exact Or.inr (Or.inr (List.drop_subset _ _ h1))

theorem normParts_resolve (A B : List (List Char))
    (hA : ∀ c ∈ A, goodComp c) (hB : ∀ c ∈ B, goodComp c) :
    normParts (A ++ relpathComps B A) = B := by
  have hAeq : List.foldl normStep [] A = A := by
    have := normParts_of_good A hA
    rwa [normParts] at this
  rw [relpathComps]
  by_cases h : List.replicate (A.length - commonLead A B) dotdot ++
      B.drop (commonLead A B) = ([] : List (List Char))
  · rw [if_pos h]
    have hlen : A.length ≤ commonLead A B :=
      Nat.le_of_sub_eq_zero ((List.replicate_eq_nil_iff _).1 (List.append_eq_nil.1 h).1)
    have hlenA : commonLead A B = A.length :=
      Nat.le_antisymm (commonLead_le A B) hlen
    have hdrop : B.drop (commonLead A B) = [] := (List.append_eq_nil.1 h).2
    have hlenB : B.length ≤ commonLead A B := by
      have := List.drop_eq_nil_iff.1 hdrop
      omega
    have hAB : A = B := by
      have h1 : A.take (commonLead A B) = A := by
        rw [hlenA]
        exact List.take_length A
      have h2 : B.take (commonLead A B) = B := List.take_of_length_le hlenB
      rw [← h1, take_commonLead A B, h2]
    rw [normParts, List.foldl_append, hAeq, List.foldl_cons, List.foldl_nil,
      normStep, if_pos (Or.inr rfl : dotc = [] ∨ dotc = dotc)]
    exact hAB
  · simp only [if_neg h]
    rw [normParts, List.foldl_append, hAeq, List.foldl_append,
      foldl_normStep_replicate,
      foldl_normStep_good (B.drop (commonLead A B)) _
        (fun c hc => hB c (List.drop_subset _ _ hc))]
    have hsub : A.length - (A.length - commonLead A B) = commonLead A B :=
      Nat.sub_sub_self (commonLead_le A B)
    rw [hsub, take_commonLead A B, List.take_append_drop]

theorem abspathComps_good (cwd p : List Char) :
    ∀ c ∈ abspathComps cwd p, goodComp c := by
  intro c hc
  rw [abspathComps] at hc
  by_cases h : isAbsPath p = true
  · rw [if_pos h] at hc
    exact normParts_good _ c hc
  · rw [if_neg h] at hc
    exact normParts_good _ c hc

theorem abspathComps_chars (cwd p : List Char) (c : List Char)
    (hc : c ∈ abspathComps cwd p) : ∀ x ∈ c, x ∈ cwd ∨ x ∈ p := by
  intro x hx
  rw [abspathComps] at hc
  by_cases h : isAbsPath p = true
  · rw [if_pos h, normParts] at hc
    rcases foldl_normStep_mem _ [] c hc with h' | h'
    · exact absurd h' (List.not_mem_nil c)
    · exact Or.inr (mem_splitComps_chars p c x h' hx)
  · rw [if_neg h, normParts] at hc
    rcases foldl_normStep_mem _ [] c hc with h' | h'
    · exact absurd h' (List.not_mem_nil c)
    · rcases List.mem_append.1 h' with h2 | h2
      · exact Or.inl (mem_splitComps_chars cwd c x h2 hx)
      · exact Or.inr (mem_splitComps_chars p c x h2 hx)

theorem abspathComps_no_slash (cwd p : List Char) (c : List Char)
    (hc : c ∈ abspathComps cwd p) : '/' ∉ c := by
  rw [abspathComps] at hc
  by_cases h : isAbsPath p = true
  · rw [if_pos h, normParts] at hc
    rcases foldl_normStep_mem _ [] c hc with h' | h'
    · exact absurd h' (List.not_mem_nil c)
    · exact mem_splitComps_no_slash p c h'
  · rw [if_neg h, normParts] at hc
    rcases foldl_normStep_mem _ [] c hc with h' | h'
    · exact absurd h' (List.not_mem_nil c)
    · rcases List.mem_append.1 h' with h2 | h2
      · exact mem_splitComps_no_slash cwd c h2
      · exact mem_splitComps_no_slash p c h2

/-- C2 (counterexample): the round trip fails as universally stated: on a
POSIX host a path component may contain a backslash, and the final
`replace('\\', '/')` of `calculate_relative_path` then turns it into a
separator, so resolving the result no longer yields `to_file`.  Concretely
with the working directory `/`, `from_file = /a` and `to_file = /x\y`. -/
theorem calculate_relative_path_roundtrip_cex :
    resolveAgainst ((abspathComps ['/'] ['/', 'a']).dropLast)
      (calculate_relative_path ['/'] ['/', 'a'] ['/', 'x', bslash, 'y']) ≠
    abspathComps ['/'] ['/', 'x', bslash, 'y'] := by decide

/-- C2 (amended): for every current working directory and pair of paths
that contain no backslash character, lexically resolving the string
returned by `calculate_relative_path(from_file, to_file)` against the
directory containing `from_file` yields exactly the normalised absolute
path of `to_file`. -/
theorem calculate_relative_path_roundtrip :
    ∀ (cwd from_file to_file : List Char), bslash ∉ cwd → bslash ∉ to_file →
      resolveAgainst ((abspathComps cwd from_file).dropLast)
        (calculate_relative_path cwd from_file to_file) =
      abspathComps cwd to_file := by
  intro cwd ff tf hcwd htf
  have hA : ∀ c ∈ (abspathComps cwd ff).dropLast, goodComp c :=
    fun c hc => abspathComps_good cwd ff c (List.dropLast_subset _ hc)
  have hB : ∀ c ∈ abspathComps cwd tf, goodComp c := abspathComps_good cwd tf
  have hrelslash : ∀ c ∈ relpathComps (abspathComps cwd tf)
      ((abspathComps cwd ff).dropLast), '/' ∉ c := by
    intro c hc
    rcases mem_relpathComps _ _ c hc with h | h | h
    · rw [h]; decide
    · rw [h]; decide
    · exact abspathComps_no_slash cwd tf c h
  have hrelbs : bslash ∉ joinComps (relpathComps (abspathComps cwd tf)
      ((abspathComps cwd ff).dropLast)) := by
    intro hx
    rcases mem_joinComps _ bslash hx with h | ⟨c, hc, hxc⟩
    · exact (by decide : bslash ≠ '/') h
    · rcases mem_relpathComps _ _ c hc with h | h | h
      · rw [h] at hxc
        exact (by decide : bslash ∉ dotc) hxc
      · rw [h] at hxc
        exact (by decide : bslash ∉ dotdot) hxc
      · rcases abspathComps_chars cwd tf c h bslash hxc with h2 | h2
        · exact hcwd h2
        · exact htf h2
  rw [calculate_relative_path, replaceBackslash_of_not_mem _ hrelbs,
    resolveAgainst,
    splitComps_joinComps _ (relpathComps_ne_nil _ _) hrelslash,
    normParts_resolve _ _ hA hB]

theorem calculate_relative_path_roundtrip_witness :
    bslash ∉ (("/").data) ∧ bslash ∉ (("/src/data/m.json").data) ∧
      resolveAgainst ((abspathComps (("/").data) (("/src/app/main.ts").data)).dropLast)
        (calculate_relative_path (("/").data) (("/src/app/main.ts").data)
          (("/src/data/m.json").data)) =
      abspathComps (("/").data) (("/src/data/m.json").data) :=
  ⟨by decide, by decide,
    calculate_relative_path_roundtrip (("/").data) (("/src/app/main.ts").data)
      (("/src/data/m.json").data) (by decide) (by decide)⟩

theorem mergeChildren_self : ∀ l : List FTree, mergeChildren l l = l
  | [] => rfl
  | FTree.file n r w :: rest => by
    simp only [mergeChildren, mergeChildren_self rest]
  | FTree.dir n ch :: rest => by
    simp only [mergeChildren, mergeChildren_self rest]

mutual
theorem scanTree_false : ∀ (cwd tp path : List Char) (t : FTree),
    scanTree cwd tp path t false = (t, false)
  | cwd, tp, path, FTree.file n r w => by simp only [scanTree]
  | cwd, tp, path, FTree.dir n ch => by
    simp only [scanTree, scanFilesList_false cwd tp path ch,
      scanDirsList_false cwd tp path ch, mergeChildren_self ch]

theorem scanFilesList_false : ∀ (cwd tp path : List Char) (l : List FTree),
    scanFilesList cwd tp path l false = (l, false)
  | cwd, tp, path, [] => by simp only [scanFilesList]
  | cwd, tp, path, FTree.file n r w :: rest => by
    simp only [scanFilesList, processFile, Bool.false_eq_true, if_false,
      scanFilesList_false cwd tp path rest]
  | cwd, tp, path, FTree.dir n ch :: rest => by
    simp only [scanFilesList, scanFilesList_false cwd tp path rest]

theorem scanDirsList_false : ∀ (cwd tp path : List Char) (l : List FTree),
    scanDirsList cwd tp path l false = (l, false)
  | cwd, tp, path, [] => by simp only [scanDirsList]
  | cwd, tp, path, FTree.dir n ch :: rest => by
    simp only [scanDirsList, scanTree_false cwd tp (joinPath path n) (FTree.dir n ch),
      scanDirsList_false cwd tp path rest]
  | cwd, tp, path, FTree.file n r w :: rest => by
    simp only [scanDirsList, scanDirsList_false cwd tp path rest]
end

theorem rewriteTree_file_shape (cwd tp path n : List Char)
    (r : Except Unit (List Char)) (w : Bool) :
    ∃ r', rewriteTree cwd tp path (FTree.file n r w) = FTree.file n r' w := by
  by_cases hjs : endsJsTs n = true
  · cases r with
    | ok c =>
      exact ⟨Except.ok (contentAfter cwd (joinPath path n) tp c),
        by simp [rewriteTree, hjs]⟩
    | error e => exact ⟨Except.error e, by simp [rewriteTree, hjs]⟩
  · exact ⟨r, by simp [rewriteTree, hjs]⟩

theorem processFile_ok_of_allOk (cwd tp path n : List Char)
    (r : Except Unit (List Char)) (w : Bool)
    (h : allJsTsOk (FTree.file n r w) = true) :
    processFile cwd tp (joinPath path n) n r w true =
      (rewriteTree cwd tp path (FTree.file n r w), true) := by
  simp only [allJsTsOk] at h
  by_cases hjs : endsJsTs n = true
  · rw [if_pos hjs] at h
    cases r with
    | error e => simp at h
    | ok content =>
      have hw : w = true := h
      cases hfi : finditer content with
      | nil => simp [processFile, hjs, update_file, hfi, rewriteTree, contentAfter]
      | cons x xs =>
        simp [processFile, hjs, update_file, hfi, rewriteTree, contentAfter, hw]
  · rw [if_neg hjs] at h
    simp [processFile, hjs, rewriteTree]

mutual
theorem scanTree_allOk : ∀ (cwd tp path : List Char) (n : List Char)
    (ch : List FTree), allJsTsOkList ch = true →
    scanTree cwd tp path (FTree.dir n ch) true =
      (rewriteTree cwd tp path (FTree.dir n ch), true)
  | cwd, tp, path, n, ch, h => by
    have hl := scanLists_allOk cwd tp path ch h
    simp only [scanTree, hl.1, hl.2.1, hl.2.2, rewriteTree]

theorem scanLists_allOk : ∀ (cwd tp path : List Char) (l : List FTree),
    allJsTsOkList l = true →
    (scanFilesList cwd tp path l true).2 = true ∧
    (scanDirsList cwd tp path l true).2 = true ∧
    mergeChildren (scanFilesList cwd tp path l true).1
      (scanDirsList cwd tp path l true).1 = rewriteList cwd tp path l
  | cwd, tp, path, [], _ => ⟨rfl, rfl, rfl⟩
  | cwd, tp, path, FTree.file n r w :: rest, h => by
    rw [allJsTsOkList, Bool.and_eq_true] at h
    have hr := scanLists_allOk cwd tp path rest h.2
    have hp := processFile_ok_of_allOk cwd tp path n r w h.1
    rcases rewriteTree_file_shape cwd tp path n r w with ⟨r', hrf⟩
    refine ⟨?_, ?_, ?_⟩
    · simp only [scanFilesList, hp, hr.1]
    · simp only [scanDirsList, hr.2.1]
    · simp only [scanFilesList, scanDirsList, hp, hrf, mergeChildren,
        rewriteList, hr.2.2]
  | cwd, tp, path, FTree.dir n ch :: rest, h => by
    rw [allJsTsOkList, Bool.and_eq_true] at h
    have hch : allJsTsOkList ch = true := by
      have h1 := h.1
      simp only [allJsTsOk] at h1
      exact h1
    have hr := scanLists_allOk cwd tp path rest h.2
    have hd := scanTree_allOk cwd tp (joinPath path n) n ch hch
    refine ⟨?_, ?_, ?_⟩
    · simp only [scanFilesList, hr.1]
    · simp only [scanDirsList, hd, hr.2.1]
    · simp only [scanFilesList, scanDirsList, hd, rewriteList, mergeChildren,
        hr.2.2]
end

theorem processFile_shape (cwd tp fpath n : List Char)
    (r : Except Unit (List Char)) (w ok : Bool) :
    ∃ r' b, processFile cwd tp fpath n r w ok = (FTree.file n r' w, b) := by
  simp only [processFile]
  split
  · split
    · split
      · exact ⟨_, _, rfl⟩
      · split
        · split
          · exact ⟨_, _, rfl⟩
          · exact ⟨_, _, rfl⟩
        · exact ⟨_, _, rfl⟩
    · exact ⟨_, _, rfl⟩
  · exact ⟨_, _, rfl⟩

theorem processFile_not_jsts (cwd tp fpath n : List Char)
    (r : Except Unit (List Char)) (w ok : Bool)
    (hjs : ¬ endsJsTs n = true) :
    processFile cwd tp fpath n r w ok = (FTree.file n r w, ok) := by
  cases ok <;> simp [processFile, hjs]

mutual
theorem scanTree_agrees : ∀ (cwd tp path : List Char) (t : FTree) (ok : Bool),
    agreesOutsideJsTs t (scanTree cwd tp path t ok).1
  | cwd, tp, path, FTree.file n r w, ok => by
    simp only [scanTree, agreesOutsideJsTs]
    by_cases hjs : endsJsTs n = true
    · rw [if_pos hjs]
      exact ⟨r, w, rfl⟩
    · rw [if_neg hjs]
      trivial
  | cwd, tp, path, FTree.dir n ch, ok => by
    simp only [scanTree, agreesOutsideJsTs]
    exact ⟨_, rfl, scanMerge_agrees cwd tp path ch ok _⟩

theorem scanMerge_agrees : ∀ (cwd tp path : List Char) (l : List FTree)
    (ok1 ok2 : Bool),
    agreesListOutsideJsTs l
      (mergeChildren (scanFilesList cwd tp path l ok1).1
        (scanDirsList cwd tp path l ok2).1)
  | cwd, tp, path, [], ok1, ok2 => by
    simp [scanFilesList, scanDirsList, mergeChildren, agreesListOutsideJsTs]
  | cwd, tp, path, FTree.file n r w :: rest, ok1, ok2 => by
    rcases processFile_shape cwd tp (joinPath path n) n r w ok1 with ⟨r', b, hp⟩
    simp only [scanFilesList, scanDirsList, hp, mergeChildren,
      agreesListOutsideJsTs]
    refine ⟨FTree.file n r' w, _, rfl, ?_, ?_⟩
    · simp only [agreesOutsideJsTs]
      by_cases hjs : endsJsTs n = true
      · rw [if_pos hjs]
        exact ⟨r', w, rfl⟩
      · rw [if_neg hjs]
        have h2 := hp.symm.trans
          (processFile_not_jsts cwd tp (joinPath path n) n r w ok1 hjs)
        injection h2 with h3 h4
    · exact scanMerge_agrees cwd tp path rest b ok2
  | cwd, tp, path, FTree.dir n ch :: rest, ok1, ok2 => by
    simp only [scanFilesList, scanDirsList, scanTree, mergeChildren,
      agreesListOutsideJsTs]
    refine ⟨_, _, rfl, ?_, ?_⟩
    · have := scanTree_agrees cwd tp (joinPath path n) (FTree.dir n ch) ok2
      simp only [scanTree] at this
      exact this
    · exact scanMerge_agrees cwd tp path rest ok1 _
end

theorem scanFilesList_error_head (cwd tp curPath n : List Char) (w : Bool)
    (rest : List FTree) (h : endsJsTs n = true) :
    scanFilesList cwd tp curPath (FTree.file n (Except.error ()) w :: rest) true =
      (FTree.file n (Except.error ()) w :: rest, false) := by
  have hp : processFile cwd tp (joinPath curPath n) n (Except.error ()) w true =
      (FTree.file n (Except.error ()) w, false) := by
    simp [processFile, h]
  simp only [scanFilesList, hp, scanFilesList_false]

/-- C7: the scan visits every file under the root directory recursively and
runs `update_file` exactly on the files whose names end in `.js` or `.ts`:
on an error-free tree the whole run equals the per-file rewrite of exactly
those files (`rewriteTree`) and reports completion, and — unconditionally —
the result agrees with the input tree on every file whose name ends in
neither extension (such files are never read or modified). -/
theorem scan_processes_exactly_jsts :
    (∀ (cwd correct_json_path base_dir n : List Char) (ch : List FTree),
      allJsTsOkList ch = true →
      scan_and_update_files cwd correct_json_path base_dir (FTree.dir n ch) =
        (rewriteTree cwd correct_json_path base_dir (FTree.dir n ch), true)) ∧
    (∀ (cwd correct_json_path path : List Char) (t : FTree) (ok : Bool),
      agreesOutsideJsTs t (scanTree cwd correct_json_path path t ok).1) := by
  constructor
  · intro cwd tp base n ch h
    simp only [scan_and_update_files]
    exact scanTree_allOk cwd tp base n ch h
  · exact scanTree_agrees

theorem scan_processes_exactly_jsts_witness :
    allJsTsOkList
      [FTree.file (("a.js").data) (Except.ok (("x").data)) true,
       FTree.file (("b.txt").data) (Except.error ()) false] = true ∧
    scan_and_update_files (("/").data) (("/d/t.json").data) ((".").data)
      (FTree.dir (("root").data)
        [FTree.file (("a.js").data) (Except.ok (("x").data)) true,
         FTree.file (("b.txt").data) (Except.error ()) false]) =
      (rewriteTree (("/").data) (("/d/t.json").data) ((".").data)
        (FTree.dir (("root").data)
          [FTree.file (("a.js").data) (Except.ok (("x").data)) true,
           FTree.file (("b.txt").data) (Except.error ()) false]), true) :=
  ⟨by rfl,
    scan_processes_exactly_jsts.1 (("/").data) (("/d/t.json").data)
      ((".").data) (("root").data)
      [FTree.file (("a.js").data) (Except.ok (("x").data)) true,
       FTree.file (("b.txt").data) (Except.error ()) false] (by rfl)⟩

/-- C8: a failing read (or write) of a candidate `.js`/`.ts` file
terminates the whole run: the failure flips the run flag immediately and
leaves the rest of its directory's files untouched; with a dead flag every
subsequent file and directory is returned untouched (no file visited after
the failing one is processed); and for a run whose first walked file fails,
`scan_and_update_files` ends with the flag `false`, so the completion
message is never printed. -/
theorem failure_terminates_run :
    (∀ (cwd correct_json_path curPath n : List Char) (w : Bool)
      (rest : List FTree), endsJsTs n = true →
      scanFilesList cwd correct_json_path curPath
        (FTree.file n (Except.error ()) w :: rest) true =
        (FTree.file n (Except.error ()) w :: rest, false)) ∧
    (∀ (cwd correct_json_path path : List Char) (t : FTree),
      scanTree cwd correct_json_path path t false = (t, false)) ∧
    (∀ (cwd correct_json_path path : List Char) (l : List FTree),
      scanFilesList cwd correct_json_path path l false = (l, false)) ∧
    (∀ (cwd correct_json_path path : List Char) (l : List FTree),
      scanDirsList cwd correct_json_path path l false = (l, false)) ∧
    (∀ (cwd correct_json_path base_dir nm n : List Char) (w : Bool)
      (rest : List FTree), endsJsTs n = true →
      scan_and_update_files cwd correct_json_path base_dir
        (FTree.dir nm (FTree.file n (Except.error ()) w :: rest)) =
        (FTree.dir nm (FTree.file n (Except.error ()) w :: rest), false)) := by
  refine ⟨scanFilesList_error_head, scanTree_false, scanFilesList_false,
    scanDirsList_false, ?_⟩
  intro cwd tp base nm n w rest h
  simp only [scan_and_update_files, scanTree,
    scanFilesList_error_head cwd tp base n w rest h, scanDirsList_false,
    mergeChildren_self]

theorem failure_terminates_run_witness :
    endsJsTs (("a.js").data) = true ∧
    scan_and_update_files [] [] []
      (FTree.dir [] [FTree.file (("a.js").data) (Except.error ()) true]) =
      (FTree.dir [] [FTree.file (("a.js").data) (Except.error ()) true],
        false) :=
  ⟨by rfl,
    failure_terminates_run.2.2.2.2 [] [] [] [] (("a.js").data) true [] (by rfl)⟩

theorem targetFilename_nonquote : ∀ c ∈ targetFilename, isQuote c = false := by
  decide

theorem requireOpen_nonquote : ∀ c ∈ requireOpen, isQuote c = false := by
  decide

theorem append_eq_extract {a b c d : List Char} (h : a ++ b = c ++ d)
    (hlen : c.length ≤ a.length) : ∃ w, a = c ++ w ∧ d = w ++ b := by
  rcases List.append_eq_append_iff.1 h with ⟨w, hw1, hw2⟩ | ⟨w, hw1, hw2⟩
  · have : w = [] := by
      have := congrArg List.length hw1
      simp at this
      have : w.length = 0 := by omega
      exact List.length_eq_zero.1 this
    subst this
    exact ⟨[], by simpa using hw1.symm, by simpa using hw2.symm⟩
  · exact ⟨w, hw1, hw2⟩

theorem drop_append_le {n : Nat} {l1 l2 : List Char} (h : n ≤ l1.length) :
    (l1 ++ l2).drop n = l1.drop n ++ l2 := by
  rw [List.drop_append_eq_append_drop, Nat.sub_eq_zero_of_le h, List.drop_zero]

theorem drop_append_add {j : Nat} (l1 l2 : List Char) :
    (l1 ++ l2).drop (l1.length + j) = l2.drop j := by
  rw [List.drop_append_eq_append_drop, List.drop_eq_nil_of_le (by omega),
    Nat.add_sub_cancel_left, List.nil_append]

theorem checkEnd_sound (s : List Char) (q : Char) (rest : List Char)
    (h : checkEnd s = some (q, rest)) :
    s = targetFilename ++ q :: ')' :: rest ∧ isQuote q = true := by
  rw [checkEnd] at h
  by_cases hp : targetFilename.isPrefixOf s = true
  · rw [if_pos hp] at h
    rcases List.isPrefixOf_iff_prefix.1 hp with ⟨z, hz⟩
    have hdrop : s.drop targetFilename.length = z := by
      rw [← hz, List.drop_left]
    rw [hdrop] at h
    cases z with
    | nil => exact absurd h (by simp)
    | cons a z' =>
      cases z' with
      | nil => exact absurd h (by simp)
      | cons b z'' =>
        change (if (isQuote a && decide (b = ')')) = true then some (a, z'')
          else none) = some (q, rest) at h
        by_cases hcond : (isQuote a && (b = ')' : Bool)) = true
        · rw [if_pos hcond] at h
          injection h with h'
          injection h' with h1 h2
          subst h1; subst h2
          rcases Bool.and_eq_true_iff.1 hcond with ⟨hq, hb⟩
          have hb' : b = ')' := by simpa using hb
          subst hb'
          exact ⟨hz.symm, hq⟩
        · rw [if_neg hcond] at h
          exact absurd h (by simp)
  · rw [if_neg hp] at h
    exact absurd h (by simp)

theorem checkEnd_complete (q : Char) (rest : List Char) (hq : isQuote q = true) :
    checkEnd (targetFilename ++ q :: ')' :: rest) = some (q, rest) := by
  rw [checkEnd,
    if_pos (List.isPrefixOf_iff_prefix.2 (List.prefix_append _ _)),
    List.drop_left]
  simp [hq]

theorem checkEnd_none_of_long_nonquote (A tail : List Char)
    (hlen : 24 < A.length) (hnq : ∀ x ∈ A, isQuote x = false) :
    checkEnd (A ++ tail) = none := by
  rw [checkEnd]
  by_cases hp : targetFilename.isPrefixOf (A ++ tail) = true
  · rw [if_pos hp]
    have h24 : targetFilename.length = 24 := by decide
    have hdrop : (A ++ tail).drop targetFilename.length = A.drop 24 ++ tail := by
      rw [h24]
      exact drop_append_le (by omega)
    rw [hdrop]
    cases hA : A.drop 24 with
    | nil =>
      have := List.drop_eq_nil_iff.1 hA
      omega
    | cons d ds =>
      have hd : isQuote d = false :=
        hnq d (List.drop_subset 24 A (hA ▸ List.mem_cons_self d ds))
      rw [List.cons_append]
      cases hrest : ds ++ tail with
      | nil => rfl
      | cons e es => simp [hd]
  · rw [if_neg hp]

theorem findClose_sound : ∀ (s mid : List Char) (q : Char) (rest : List Char),
    findClose s = some (mid, q, rest) →
    s = mid ++ targetFilename ++ q :: ')' :: rest ∧ isQuote q = true ∧
      ∀ c ∈ mid, isQuote c = false
  | [], mid, q, rest, h => absurd h (by rw [findClose]; simp)
  | c :: cs, mid, q, rest, h => by
    rw [findClose] at h
    cases hce : checkEnd (c :: cs) with
    | some pr =>
      obtain ⟨q', rest'⟩ := pr
      rw [hce] at h
      injection h with h'
      injection h' with h1 h2
      injection h2 with h2 h3
      subst h1; subst h2; subst h3
      rcases checkEnd_sound (c :: cs) _ _ hce with ⟨hs, hq⟩
      exact ⟨by simpa using hs, hq, by simp⟩
    | none =>
      rw [hce] at h
      by_cases hq : isQuote c = true
      · rw [if_pos hq] at h
        exact absurd h (by simp)
      · rw [if_neg hq] at h
        cases hfc : findClose cs with
        | none =>
          rw [hfc] at h
          exact absurd h (by simp)
        | some pr =>
          obtain ⟨mid', q', rest'⟩ := pr
          rw [hfc] at h
          injection h with h'
          injection h' with h1 h2
          injection h2 with h2 h3
          subst h2; subst h3
          rcases findClose_sound cs mid' q' rest' hfc with ⟨hs, hq', hmid⟩
          subst h1
          refine ⟨by rw [hs]; simp, hq', ?_⟩
          intro x hx
          rcases List.mem_cons.1 hx with hx | hx
          · rw [hx]
        
            exact Bool.not_eq_true _ ▸ (by simpa using hq)
          · exact hmid x hx

theorem findClose_of_checkEnd : ∀ (s : List Char) (q : Char) (rest : List Char),
    checkEnd s = some (q, rest) → findClose s = some ([], q, rest)
  | [], q, rest, h => by
    rw [show checkEnd ([] : List Char) = none from rfl] at h
    exact Option.noConfusion h
  | c :: cs, q, rest, h => by
    rw [findClose, h]

theorem findClose_complete : ∀ (mid : List Char) (q : Char) (rest : List Char),
    (∀ c ∈ mid, isQuote c = false) → isQuote q = true →
    findClose (mid ++ targetFilename ++ q :: ')' :: rest) = some (mid, q, rest)
  | [], q, rest, _, hq => by
    rw [List.nil_append]
    exact findClose_of_checkEnd _ q rest (checkEnd_complete q rest hq)
  | c :: mid', q, rest, hmid, hq => by
    have hc : isQuote c = false := hmid c (List.mem_cons_self c mid')
    have hnone : checkEnd (c :: (mid' ++ targetFilename ++ q :: ')' :: rest)) =
        none := by
      have := checkEnd_none_of_long_nonquote (c :: (mid' ++ targetFilename))
        (q :: ')' :: rest)
        (by
          have h24 : targetFilename.length = 24 := by decide
          simp
          omega)
        (by
          intro x hx
          rcases List.mem_cons.1 hx with hx | hx
          · rw [hx]; exact hc
          · rcases List.mem_append.1 hx with hx | hx
            · exact hmid x (List.mem_cons_of_mem c hx)
            · exact targetFilename_nonquote x hx)
      simpa using this
    have harg : (c :: mid') ++ targetFilename ++ q :: ')' :: rest =
        c :: (mid' ++ targetFilename ++ q :: ')' :: rest) := by simp
    rw [harg, findClose.eq_def]
    dsimp only
    rw [hnone]
    dsimp only
    rw [if_neg (by simp [hc]),
      findClose_complete mid' q rest
        (fun d hd => hmid d (List.mem_cons_of_mem c hd)) hq]

theorem matchAt_sound (s : List Char) (m : RMatch) (rest : List Char)
    (h : matchAt s = some (m, rest)) :
    s = fullStr m ++ rest ∧ matchWF m := by
  rw [matchAt] at h
  by_cases hp : requireOpen.isPrefixOf s = true
  · rw [if_pos hp] at h
    rcases List.isPrefixOf_iff_prefix.1 hp with ⟨z, hz⟩
    have hdrop : s.drop requireOpen.length = z := by
      rw [← hz, List.drop_left]
    rw [hdrop] at h
    cases z with
    | nil => exact absurd h (by simp)
    | cons q1 s' =>
      dsimp only at h
      by_cases hq : isQuote q1 = true
      · rw [if_pos hq] at h
        cases hfc : findClose s' with
        | none =>
          rw [hfc] at h
          exact absurd h (by simp)
        | some pr =>
          obtain ⟨mid, q3, rest'⟩ := pr
          rw [hfc] at h
          injection h with h'
          injection h' with h1 h2
          subst h2
          rcases findClose_sound s' _ _ _ hfc with ⟨hs', hq3, hmid⟩
          subst h1
          constructor
          · rw [← hz, hs', fullStr]
            simp
          · exact ⟨hq, hq3, hmid⟩
      · rw [if_neg hq] at h
        exact absurd h (by simp)
  · rw [if_neg hp] at h
    exact absurd h (by simp)

theorem matchAt_complete (m : RMatch) (rest : List Char) (hwf : matchWF m) :
    matchAt (fullStr m ++ rest) = some (m, rest) := by
  obtain ⟨q1, mid, q3⟩ := m
  obtain ⟨hq1, hq3, hmid⟩ := hwf
  have hshape : fullStr ⟨q1, mid, q3⟩ ++ rest =
      requireOpen ++ q1 :: (mid ++ targetFilename ++ q3 :: ')' :: rest) := by
    rw [fullStr]
    simp
  rw [hshape, matchAt,
    if_pos (List.isPrefixOf_iff_prefix.2 (List.prefix_append _ _)),
    List.drop_left]
  dsimp only
  rw [if_pos hq1, findClose_complete mid q3 rest hmid hq3]

theorem matchAt_nil : matchAt [] = none := by decide

theorem fullStr_ne_nil (m : RMatch) : fullStr m ≠ [] := by
  rw [fullStr]
  simp [requireOpen]

theorem fullStr_length (m : RMatch) :
    (fullStr m).length = 35 + m.mid.length := by
  rw [fullStr]
  have h1 : requireOpen.length = 8 := by decide
  have h2 : targetFilename.length = 24 := by decide
  simp [h1, h2]
  omega

theorem findIterGo_zero (s : List Char) (i : Nat) : findIterGo 0 s i = [] :=
  rfl

theorem findIterGo_succ (fuel : Nat) (s : List Char) (i : Nat) :
    findIterGo (fuel + 1) s i =
      match matchAt s with
      | some (m, rest) => (i, m) :: findIterGo fuel rest (i + (fullStr m).length)
      | none =>
        match s with
        | [] => []
        | _ :: cs => findIterGo fuel cs (i + 1) :=
  rfl

theorem findIterGo_nil_fail : ∀ (fuel : Nat) (s : List Char) (i : Nat),
    s.length ≤ fuel → findIterGo fuel s i = [] →
    ∀ v w : List Char, s = v ++ w → matchAt w = none
  | 0, s, i, hf, _, v, w, hs => by
    have hnil : s = [] := List.eq_nil_of_length_eq_zero (Nat.le_zero.1 hf)
    subst hnil
    have hw : w = [] := (List.append_eq_nil.1 hs.symm).2
    subst hw
    exact matchAt_nil
  | fuel + 1, s, i, hf, hgo, v, w, hs => by
    rw [findIterGo_succ] at hgo
    cases hma : matchAt s with
    | some pr =>
      obtain ⟨m0, rest0⟩ := pr
      rw [hma] at hgo
      exact absurd hgo (by simp)
    | none =>
      rw [hma] at hgo
      cases s with
      | nil =>
        have hw : w = [] := (List.append_eq_nil.1 hs.symm).2
        subst hw
        exact matchAt_nil
      | cons c cs =>
        cases v with
        | nil =>
          have hw : w = c :: cs := by simpa using hs.symm
          rw [hw]
          exact hma
        | cons c' v' =>
          have hcs : cs = v' ++ w := by
            have := hs
            rw [List.cons_append] at this
            injection this with h1 h2
          exact findIterGo_nil_fail fuel cs (i + 1) (by simpa using hf) hgo
            v' w hcs

theorem findIterGo_single : ∀ (fuel : Nat) (s : List Char) (i pos : Nat)
    (m : RMatch), s.length ≤ fuel → findIterGo fuel s i = [(pos, m)] →
    ∃ u tail, s = u ++ fullStr m ++ tail ∧ pos = i + u.length ∧ matchWF m ∧
      (∀ v w, u = v ++ w → w ≠ [] → matchAt (w ++ fullStr m ++ tail) = none) ∧
      (∀ v w, tail = v ++ w → matchAt w = none)
  | 0, s, i, pos, m, hf, hgo => by
    rw [findIterGo_zero] at hgo
    exact absurd hgo (by simp)
  | fuel + 1, s, i, pos, m, hf, hgo => by
    rw [findIterGo_succ] at hgo
    cases hma : matchAt s with
    | some pr =>
      obtain ⟨m0, rest0⟩ := pr
      rw [hma] at hgo
      dsimp only at hgo
      injection hgo with h1 h2
      injection h1 with h3 h4
      subst h3; subst h4
      rcases matchAt_sound s _ _ hma with ⟨hshape, hwf⟩
      have hrest : rest0.length ≤ fuel := by
        have hlen := congrArg List.length hshape
        simp [fullStr_length] at hlen
        omega
      refine ⟨[], rest0, by simpa using hshape, by simp, hwf, ?_, ?_⟩
      · intro v w hvw hwne
        exact absurd ((List.append_eq_nil.1 hvw.symm).2) hwne
      · exact findIterGo_nil_fail fuel rest0 _ hrest h2
    | none =>
      rw [hma] at hgo
      cases s with
      | nil => exact absurd hgo (by simp)
      | cons c cs =>
        rcases findIterGo_single fuel cs (i + 1) pos m (by simpa using hf) hgo
          with ⟨u, tail, hcs, hpos, hwf, hu, htail⟩
        refine ⟨c :: u, tail, by simp [hcs], by simp [hpos]; omega,
          hwf, ?_, htail⟩
        intro v w hvw hwne
        cases v with
        | nil =>
          have hw : w = c :: u := by simpa using hvw.symm
          subst hw
          have harg : (c :: u) ++ fullStr m ++ tail = c :: cs := by simp [hcs]
          rw [harg]
          exact hma
        | cons c'' v' =>
          have h2 : u = v' ++ w := by
            rw [List.cons_append] at hvw
            injection hvw with h1 h2
          exact hu v' w h2 hwne

theorem replaceAllGo_zero (old new s : List Char) :
    replaceAllGo old new 0 s = s :=
  rfl

theorem replaceAllGo_succ_nil (old new : List Char) (fuel : Nat) :
    replaceAllGo old new (fuel + 1) [] = [] :=
  rfl

theorem replaceAllGo_succ_cons (old new : List Char) (fuel : Nat) (c : Char)
    (cs : List Char) :
    replaceAllGo old new (fuel + 1) (c :: cs) =
      if old.isPrefixOf (c :: cs) then
        new ++ replaceAllGo old new fuel ((c :: cs).drop old.length)
      else c :: replaceAllGo old new fuel cs :=
  rfl

theorem replaceAllGo_no_occ (old new : List Char) : ∀ (fuel : Nat) (s : List Char),
    s.length ≤ fuel → (∀ v w : List Char, s = v ++ w → ¬ old <+: w) →
    replaceAllGo old new fuel s = s
  | 0, s, _, _ => replaceAllGo_zero old new s
  | fuel + 1, [], _, _ => replaceAllGo_succ_nil old new fuel
  | fuel + 1, c :: cs, hf, hocc => by
    rw [replaceAllGo_succ_cons,
      if_neg (fun hp => hocc [] (c :: cs) rfl (List.isPrefixOf_iff_prefix.1 hp)),
      replaceAllGo_no_occ old new fuel cs (by simpa using hf)
        (fun v w hw => hocc (c :: v) w (by rw [hw]; rfl))]

theorem replaceAllGo_single (old new : List Char) (hold : old ≠ []) :
    ∀ (fuel : Nat) (u tail : List Char),
    (u ++ old ++ tail).length ≤ fuel →
    (∀ v w : List Char, u = v ++ w → w ≠ [] → ¬ old <+: (w ++ old ++ tail)) →
    (∀ v w : List Char, tail = v ++ w → ¬ old <+: w) →
    replaceAllGo old new fuel (u ++ old ++ tail) = u ++ new ++ tail
  | 0, u, tail, hf, _, _ => by
    exfalso
    have h1 : 1 ≤ old.length := List.length_pos.2 hold
    have h2 := hf
    rw [List.length_append, List.length_append] at h2
    omega
  | fuel + 1, [], tail, hf, hu, htail => by
    cases hco : old with
    | nil => exact absurd hco hold
    | cons o old' =>
      subst hco
      have hshape : ([] : List Char) ++ (o :: old') ++ tail =
          o :: (old' ++ tail) := by simp
      rw [hshape, replaceAllGo_succ_cons,
        if_pos (List.isPrefixOf_iff_prefix.2 ⟨tail, by simp⟩)]
      have hdrop : (o :: (old' ++ tail)).drop (o :: old').length = tail := by
        rw [show o :: (old' ++ tail) = (o :: old') ++ tail from by simp,
          List.drop_left]
      rw [hdrop, replaceAllGo_no_occ (o :: old') new fuel tail
        (by simp at hf ⊢; omega) htail]
      simp
  | fuel + 1, c :: u', tail, hf, hu, htail => by
    have hshape : (c :: u') ++ old ++ tail = c :: (u' ++ old ++ tail) := by simp
    rw [hshape, replaceAllGo_succ_cons,
      if_neg (fun hp => hu [] (c :: u') rfl (List.cons_ne_nil c u')
        (by rw [← hshape] at hp; exact List.isPrefixOf_iff_prefix.1 hp)),
      replaceAllGo_single old new hold fuel u' tail
        (by simp at hf ⊢; omega)
        (fun v w hw hwne => hu (c :: v) w (by rw [hw]; rfl) hwne)
        htail]
    simp

theorem pyReplace_single (old new u tail : List Char) (hold : old ≠ [])
    (hu : ∀ v w : List Char, u = v ++ w → w ≠ [] → ¬ old <+: (w ++ old ++ tail))
    (htail : ∀ v w : List Char, tail = v ++ w → ¬ old <+: w) :
    pyReplace (u ++ old ++ tail) old new = u ++ new ++ tail := by
  rw [pyReplace]
  exact replaceAllGo_single old new hold (u ++ old ++ tail).length u tail
    (le_refl _) hu htail

/-- C1: if the content contains exactly one match of the reference pattern,
`update_file` produces output identical to the input except that the single
matched substring is replaced by the reference-loading call
`require('<rel>')` whose argument is the relative path computed by
`calculate_relative_path` from the file's location to the target
location. -/
theorem update_file_single_match :
    ∀ (cwd file_path correct_json_path content : List Char) (pos : Nat)
      (m : RMatch), finditer content = [(pos, m)] →
      ∃ pre post, content = pre ++ fullStr m ++ post ∧ pre.length = pos ∧
        contentAfter cwd file_path correct_json_path content =
          pre ++ (requireOpen ++ squote ::
            (calculate_relative_path cwd file_path correct_json_path ++
              [squote, ')'])) ++ post := by
  intro cwd fp tp content pos m h
  have h0 : findIterGo content.length content 0 = [(pos, m)] := h
  rcases findIterGo_single content.length content 0 pos m (le_refl _) h0
    with ⟨u, tail, hcs, hpos, hwf, hu, htail⟩
  have hu' : ∀ v w : List Char, u = v ++ w → w ≠ [] →
      ¬ fullStr m <+: (w ++ fullStr m ++ tail) := by
    intro v w hvw hwne hpre
    rcases hpre with ⟨z, hz⟩
    have hnone := hu v w hvw hwne
    rw [← hz] at hnone
    rw [matchAt_complete m z hwf] at hnone
    exact Option.noConfusion hnone
  have ht' : ∀ v w : List Char, tail = v ++ w → ¬ fullStr m <+: w := by
    intro v w hvw hpre
    rcases hpre with ⟨z, hz⟩
    have hnone := htail v w hvw
    rw [← hz] at hnone
    rw [matchAt_complete m z hwf] at hnone
    exact Option.noConfusion hnone
  have hupd : contentAfter cwd fp tp content =
      pyReplace content (fullStr m) (replacementFor cwd fp tp m) := by
    rw [contentAfter, update_file]
    simp [h]
  refine ⟨u, tail, hcs, by omega, ?_⟩
  rw [hupd, hcs,
    pyReplace_single (fullStr m) (replacementFor cwd fp tp m) u tail
      (fullStr_ne_nil m) hu' ht']
  rfl

theorem update_file_single_match_witness :
    finditer (("var x = require(").data ++ squote ::
        (("./a/medicaid_rules_2025.json").data ++ squote :: (");").data)) =
      [(8, ⟨squote, ("./a/").data, squote⟩)] ∧
    ∃ pre post,
      ("var x = require(").data ++ squote ::
          (("./a/medicaid_rules_2025.json").data ++ squote :: (");").data) =
        pre ++ fullStr ⟨squote, ("./a/").data, squote⟩ ++ post ∧
      pre.length = 8 ∧
      contentAfter (("/").data) (("/p/a.js").data) (("/p/m.json").data)
          (("var x = require(").data ++ squote ::
            (("./a/medicaid_rules_2025.json").data ++ squote :: (");").data)) =
        pre ++ (requireOpen ++ squote ::
          (calculate_relative_path (("/").data) (("/p/a.js").data)
              (("/p/m.json").data) ++ [squote, ')'])) ++ post :=
  ⟨by decide,
    update_file_single_match (("/").data) (("/p/a.js").data)
      (("/p/m.json").data)
      (("var x = require(").data ++ squote ::
        (("./a/medicaid_rules_2025.json").data ++ squote :: (");").data))
      8 ⟨squote, ("./a/").data, squote⟩ (by decide)⟩

/-- C4 (counterexample): the per-file rewrite is not idempotent for every
configuration and content: with working directory `/`, file `/f` and
target path `/require('medicaid_rules_2025.json` (a legal POSIX file name
containing a quote), the computed relative path makes the replacement text
itself contain a fresh matchable call, so a second pass rewrites different
bytes and the content keeps growing. -/
theorem update_file_not_idempotent_cex :
    contentAfter (['/']) (['/', 'f'])
        ('/' :: (("require(").data ++ squote :: ("medicaid_rules_2025.json").data))
        (contentAfter (['/']) (['/', 'f'])
          ('/' :: (("require(").data ++ squote :: ("medicaid_rules_2025.json").data))
          (("require(").data ++ dquote ::
            (("medicaid_rules_2025.json").data ++ dquote :: [')']))) ≠
      contentAfter (['/']) (['/', 'f'])
        ('/' :: (("require(").data ++ squote :: ("medicaid_rules_2025.json").data))
        (("require(").data ++ dquote ::
          (("medicaid_rules_2025.json").data ++ dquote :: [')'])) := by
  decide

theorem container_quote_pos (q q' q0 : Char) (B x y : List Char)
    (hq0 : isQuote q0 = true) (hB : ∀ c ∈ B, isQuote c = false)
    (heq : requireOpen ++ q :: (B ++ [q', ')']) = x ++ q0 :: y) :
    x.length = 8 ∨ x.length = B.length + 9 := by
  have hR8 : requireOpen.length = 8 := by decide
  have hlen : x.length + (1 + y.length) = B.length + 11 := by
    have h := congrArg List.length heq
    simp [hR8] at h
    omega
  rcases Nat.lt_or_ge x.length 8 with h8 | h8
  · exfalso
    rcases append_eq_extract heq (by omega) with ⟨w, hw1, hw2⟩
    cases w with
    | nil =>
      have := congrArg List.length hw1
      simp [hR8] at this
      omega
    | cons d w' =>
      have hd : q0 = d := by
        rw [List.cons_append] at hw2
        injection hw2
      have hmem : d ∈ requireOpen := by
        rw [hw1]
        exact List.mem_append_right x (List.mem_cons_self d w')
      rw [hd] at hq0
      rw [requireOpen_nonquote d hmem] at hq0
      exact Bool.noConfusion hq0
  rcases Nat.eq_or_lt_of_le h8 with h8e | h8l
  · exact Or.inl h8e.symm
  rcases Nat.lt_or_ge x.length (B.length + 9) with hB9 | hB9
  · exfalso
    have hshape : requireOpen ++ q :: (B ++ [q', ')']) =
        (requireOpen ++ [q]) ++ (B ++ [q', ')']) := by simp
    rw [hshape] at heq
    rcases append_eq_extract heq.symm (by simp [hR8]; omega)
      with ⟨x', hx1, hx2⟩
    have hx'len : x'.length = x.length - 9 := by
      have := congrArg List.length hx1
      simp [hR8] at this
      omega
    rcases append_eq_extract hx2 (by omega) with ⟨w, hw1, hw2⟩
    cases w with
    | nil =>
      have := congrArg List.length hw1
      simp at this
      omega
    | cons d w' =>
      have hd : q0 = d := by
        rw [List.cons_append] at hw2
        injection hw2
      have hmem : d ∈ B := by
        rw [hw1]
        exact List.mem_append_right x' (List.mem_cons_self d w')
      rw [hd, hB d hmem] at hq0
      exact Bool.noConfusion hq0
  rcases Nat.eq_or_lt_of_le hB9 with hB9e | hB9l
  · exact Or.inr hB9e.symm
  exfalso
  have hxlen : x.length = B.length + 10 := by omega
  have hy : y = [] := by
    have : y.length = 0 := by omega
    exact List.eq_nil_of_length_eq_zero this
  subst hy
  have hshape : requireOpen ++ q :: (B ++ [q', ')']) =
      (requireOpen ++ q :: (B ++ [q'])) ++ [')'] := by simp
  rw [hshape] at heq
  rcases List.append_inj heq (by simp [hR8]; omega) with ⟨_, h2⟩
  injection h2 with h3
  rw [← h3] at hq0
  exact absurd hq0 (by decide)

theorem fullStr_no_require_suffix (m : RMatch) :
    ∀ w : List Char, m.mid ++ targetFilename ≠ w ++ requireOpen := by
  intro w heq
  have h24 : targetFilename.length = 24 := by decide
  have h8 : requireOpen.length = 8 := by decide
  have h1 := congrArg List.length heq
  simp [h24, h8] at h1
  have h2 : (m.mid ++ targetFilename).drop (m.mid.length + 16) =
      targetFilename.drop 16 := drop_append_add _ _
  rw [heq] at h2
  have hw : w.length = m.mid.length + 16 := by omega
  have h3 : (w ++ requireOpen).drop (m.mid.length + 16) = requireOpen := by
    rw [← hw, List.drop_left]
  rw [h3] at h2
  exact absurd h2 (by decide)

theorem no_inner_require (q q' : Char) (B : List Char)
    (hq : isQuote q = true) (hq' : isQuote q' = true)
    (hB : ∀ c ∈ B, isQuote c = false)
    (hBsuf : ∀ w : List Char, B ≠ w ++ requireOpen)
    (qi : Char) (hqi : isQuote qi = true) (w z y : List Char)
    (hwne : w ≠ [])
    (hwlt : w.length < (requireOpen ++ q :: (B ++ [q', ')'])).length)
    (heq : (requireOpen ++ q :: (B ++ [q', ')'])) ++ z =
      w ++ (requireOpen ++ qi :: y)) : False := by
  have hR8 : requireOpen.length = 8 := by decide
  have hCL : (requireOpen ++ q :: (B ++ [q', ')'])).length = B.length + 11 := by
    simp [hR8]
    omega
  have hwB11 : w.length < B.length + 11 := by
    rw [hCL] at hwlt
    exact hwlt
  have hwpos : 1 ≤ w.length := by
    cases w with
    | nil => exact absurd rfl hwne
    | cons a as => simp
  rcases append_eq_extract heq (le_of_lt hwlt) with ⟨w2, hw2a, hw2b⟩
  have hw2len : w.length + w2.length = B.length + 11 := by
    have h := congrArg List.length hw2a
    rw [hCL] at h
    simp at h
    omega
  rcases Nat.lt_or_ge w2.length 9 with hsmall | hbig
  · rcases append_eq_extract hw2b (by rw [hR8]; omega) with ⟨w3, hw3a, hw3b⟩
    have hshape : (requireOpen ++ q :: (B ++ [q', ')'])) =
        (requireOpen ++ q :: (B ++ [q'])) ++ [')'] := by simp
    rw [hshape] at hw2a
    rcases append_eq_extract hw2a (by simp [hR8]; omega) with ⟨w5, hw5a, hw5b⟩
    have hmem : (')') ∈ w2 := by
      rw [hw5b]
      exact List.mem_append_right w5 (List.mem_cons_self _ _)
    have hmem2 : (')') ∈ requireOpen := by
      rw [hw3a]
      exact List.mem_append_left w3 hmem
    exact absurd hmem2 (by decide)
  · have hw2b' : w2 ++ z = (requireOpen ++ [qi]) ++ y := by
      rw [← hw2b]
      simp
    rcases append_eq_extract hw2b' (by simp [hR8]; omega) with ⟨u2, hu2a, hu2b⟩
    have hE : requireOpen ++ q :: (B ++ [q', ')']) =
        w ++ ((requireOpen ++ [qi]) ++ u2) := by
      rw [hw2a, hu2a]
    have hk2 : w.length ≤ B.length + 2 := by omega
    rcases Nat.lt_or_ge w.length 9 with hreg1 | hreg2
    · rcases append_eq_extract hE (by rw [hR8]; omega) with ⟨w6, hw6a, hw6b⟩
      have hw6len : w6.length = 8 - w.length := by
        have h := congrArg List.length hw6a
        simp [hR8] at h
        omega
      have hw6b' : requireOpen ++ ([qi] ++ u2) = w6 ++ (q :: (B ++ [q', ')'])) := by
        rw [← hw6b]
        simp
      rcases append_eq_extract hw6b' (by rw [hR8]; omega) with ⟨w7, hw7a, hw7b⟩
      cases w7 with
      | nil =>
        have h1 := congrArg List.length hw7a
        simp [hR8] at h1
        omega
      | cons d7 w7' =>
        have hd : q = d7 := by
          rw [List.cons_append] at hw7b
          injection hw7b
        have hmem : d7 ∈ requireOpen := by
          rw [hw7a]
          exact List.mem_append_right w6 (List.mem_cons_self _ _)
        rw [hd, requireOpen_nonquote d7 hmem] at hq
        exact Bool.noConfusion hq
    · have hshape2 : requireOpen ++ q :: (B ++ [q', ')']) =
          (requireOpen ++ [q]) ++ (B ++ [q', ')']) := by simp
      rw [hshape2] at hE
      rcases append_eq_extract hE.symm (by simp [hR8]; omega) with ⟨w8, hw8a, hw8b⟩
      have hw8len : w8.length = w.length - 9 := by
        have h := congrArg List.length hw8a
        simp [hR8] at h
        omega
      rcases Nat.lt_or_ge B.length (w8.length + 8) with hBsm | hBbig
      · rcases append_eq_extract hw8b (by omega) with ⟨wB, hwBa, hwBb⟩
        have hwBlen : wB.length = B.length - w8.length := by
          have h := congrArg List.length hwBa
          simp at h
          omega
        have hwBb' : requireOpen ++ ([qi] ++ u2) = wB ++ [q', ')'] := by
          rw [← hwBb]
          simp
        rcases append_eq_extract hwBb' (by rw [hR8]; omega) with ⟨w10, hw10a, hw10b⟩
        cases w10 with
        | nil =>
          have h1 := congrArg List.length hw10a
          simp [hR8] at h1
          omega
        | cons d10 w10' =>
          have hd : q' = d10 := by
            rw [List.cons_append] at hw10b
            injection hw10b
          have hmem : d10 ∈ requireOpen := by
            rw [hw10a]
            exact List.mem_append_right wB (List.mem_cons_self _ _)
          rw [hd, requireOpen_nonquote d10 hmem] at hq'
          exact Bool.noConfusion hq'
      · have hw8b' : B ++ [q', ')'] = (w8 ++ requireOpen) ++ ([qi] ++ u2) := by
          rw [hw8b]
          simp
        rcases append_eq_extract hw8b' (by simp [hR8]; omega) with ⟨w9, hw9a, hw9b⟩
        cases w9 with
        | nil =>
          exact hBsuf w8 (by simpa using hw9a)
        | cons d9 w9' =>
          have hd : qi = d9 := by
            rw [List.cons_append] at hw9b
            injection hw9b
          have hmem : d9 ∈ B := by
            rw [hw9a]
            exact List.mem_append_right _ (List.mem_cons_self _ _)
          rw [hd, hB d9 hmem] at hqi
          exact Bool.noConfusion hqi

theorem fullStr_shape (m : RMatch) :
    fullStr m =
      requireOpen ++ m.q1 :: ((m.mid ++ targetFilename) ++ [m.q3, ')']) := by
  rw [fullStr]

theorem fullStr_B_nonquote (m : RMatch) (hwf : matchWF m) :
    ∀ c ∈ m.mid ++ targetFilename, isQuote c = false := by
  intro c hc
  rcases List.mem_append.1 hc with h | h
  · exact hwf.2.2 c h
  · exact targetFilename_nonquote c h

theorem same_start_aux (m1 m2 : RMatch) (hwf1 : matchWF m1) (hwf2 : matchWF m2)
    (a b : List Char) (hle : (fullStr m1).length ≤ (fullStr m2).length)
    (heq : fullStr m1 ++ a = fullStr m2 ++ b) :
    fullStr m1 = fullStr m2 := by
  rcases append_eq_extract heq.symm hle with ⟨d, hd1, hd2⟩
  cases d with
  | nil => simpa using hd1.symm
  | cons e d' =>
    exfalso
    have hx : requireOpen ++ m2.q1 :: ((m2.mid ++ targetFilename) ++ [m2.q3, ')']) =
        (requireOpen ++ m1.q1 :: (m1.mid ++ targetFilename)) ++
          m1.q3 :: (')' :: e :: d') := by
      rw [← fullStr_shape m2, hd1, fullStr_shape m1]
      simp
    have hR8 : requireOpen.length = 8 := by decide
    have h24 : targetFilename.length = 24 := by decide
    rcases container_quote_pos m2.q1 m2.q3 m1.q3 (m2.mid ++ targetFilename)
      (requireOpen ++ m1.q1 :: (m1.mid ++ targetFilename)) (')' :: e :: d')
      hwf1.2.1 (fullStr_B_nonquote m2 hwf2) hx with h | h
    · simp [hR8] at h
    · simp [hR8, h24] at h
      have h1 := congrArg List.length hd1
      simp [fullStr_length] at h1
      omega

theorem same_start_full (m1 m2 : RMatch) (hwf1 : matchWF m1) (hwf2 : matchWF m2)
    (a b : List Char) (heq : fullStr m1 ++ a = fullStr m2 ++ b) :
    fullStr m1 = fullStr m2 := by
  rcases le_total (fullStr m1).length (fullStr m2).length with h | h
  · exact same_start_aux m1 m2 hwf1 hwf2 a b h heq
  · exact (same_start_aux m2 m1 hwf2 hwf1 b a h heq.symm).symm

theorem same_start_with_R (p : List Char) (hp : ∀ c ∈ p, isQuote c = false)
    (m : RMatch) (hwf : matchWF m) (a b : List Char)
    (heq : fullStr m ++ a = (requireOpen ++ squote :: (p ++ [squote, ')'])) ++ b) :
    fullStr m = requireOpen ++ squote :: (p ++ [squote, ')']) := by
  have hR8 : requireOpen.length = 8 := by decide
  have h24 : targetFilename.length = 24 := by decide
  have hsq : isQuote squote = true := by decide
  rcases le_total (fullStr m).length
    (requireOpen ++ squote :: (p ++ [squote, ')'])).length with hle | hle
  · rcases append_eq_extract heq.symm hle with ⟨d, hd1, hd2⟩
    cases d with
    | nil => simpa using hd1.symm
    | cons e d' =>
      exfalso
      have hx : requireOpen ++ squote :: (p ++ [squote, ')']) =
          (requireOpen ++ m.q1 :: (m.mid ++ targetFilename)) ++
            m.q3 :: (')' :: e :: d') := by
        rw [hd1, fullStr_shape m]
        simp
      rcases container_quote_pos squote squote m.q3 p
        (requireOpen ++ m.q1 :: (m.mid ++ targetFilename)) (')' :: e :: d')
        hwf.2.1 hp hx with h | h
      · simp [hR8] at h
      · simp [hR8, h24] at h
        have h1 := congrArg List.length hd1
        simp [fullStr_length, hR8] at h1
        omega
  · rcases append_eq_extract heq hle with ⟨d, hd1, hd2⟩
    cases d with
    | nil => simpa using hd1
    | cons e d' =>
      exfalso
      have hx : requireOpen ++ m.q1 :: ((m.mid ++ targetFilename) ++ [m.q3, ')']) =
          (requireOpen ++ squote :: p) ++ squote :: (')' :: e :: d') := by
        rw [← fullStr_shape m, hd1]
        simp
      rcases container_quote_pos m.q1 m.q3 squote (m.mid ++ targetFilename)
        (requireOpen ++ squote :: p) (')' :: e :: d') hsq
        (fullStr_B_nonquote m hwf) hx with h | h
      · simp [hR8] at h
      · simp [hR8, h24] at h
        have h1 := congrArg List.length hd1
        simp [fullStr_length, hR8] at h1
        omega

theorem findIterGo_chunks : ∀ (fuel : Nat) (s : List Char) (i : Nat),
    s.length ≤ fuel →
    ∃ ps tail, s = chunks ps tail ∧ (∀ pm ∈ ps, matchWF pm.2) ∧
      GapsFail ps tail ∧
      (findIterGo fuel s i).map Prod.snd = ps.map Prod.snd
  | 0, s, i, hf => by
    have hnil : s = [] := List.eq_nil_of_length_eq_zero (Nat.le_zero.1 hf)
    subst hnil
    refine ⟨[], [], rfl, by simp, ?_, by simp [findIterGo_zero]⟩
    intro v w hw
    have : w = [] := (List.append_eq_nil.1 hw.symm).2
    rw [this]
    exact matchAt_nil
  | fuel + 1, s, i, hf => by
    rw [findIterGo_succ]
    cases hma : matchAt s with
    | some pr =>
      obtain ⟨m, rest⟩ := pr
      rcases matchAt_sound s m rest hma with ⟨hshape, hwf⟩
      have hrest : rest.length ≤ fuel := by
        have hlen := congrArg List.length hshape
        simp [fullStr_length] at hlen
        omega
      rcases findIterGo_chunks fuel rest (i + (fullStr m).length) hrest
        with ⟨ps', tail', hch, hwfs, hgf, hmap⟩
      refine ⟨([], m) :: ps', tail', ?_, ?_, ?_, ?_⟩
      · rw [chunks, hshape, hch]
        simp
      · intro pm hpm
        rcases List.mem_cons.1 hpm with h | h
        · rw [h]
          exact hwf
        · exact hwfs pm h
      · refine ⟨?_, hgf⟩
        intro v w hw hwne
        exact absurd (List.append_eq_nil.1 hw.symm).2 hwne
      · simp only [List.map_cons, hmap]
    | none =>
      cases s with
      | nil =>
        refine ⟨[], [], rfl, by simp, ?_, by simp⟩
        intro v w hw
        have : w = [] := (List.append_eq_nil.1 hw.symm).2
        rw [this]
        exact matchAt_nil
      | cons c cs =>
        rcases findIterGo_chunks fuel cs (i + 1) (by simpa using hf)
          with ⟨ps', tail', hch, hwfs, hgf, hmap⟩
        cases ps' with
        | nil =>
          refine ⟨[], c :: tail', ?_, by simp, ?_, by simpa using hmap⟩
          · rw [chunks] at hch ⊢
            rw [hch]
          · intro v w hw
            cases v with
            | nil =>
              have hch' : cs = tail' := by
                rw [chunks] at hch
                exact hch
              have hww : w = c :: tail' := by simpa using hw.symm
              rw [hww, ← hch']
              exact hma
            | cons c' v' =>
              rw [List.cons_append] at hw
              injection hw with h1 h2
              subst h1
              rw [chunks] at hch
              subst hch
              exact hgf v' w h2
        | cons hd ps'' =>
          obtain ⟨u, m⟩ := hd
          refine ⟨(c :: u, m) :: ps'', tail', ?_, ?_, ?_, ?_⟩
          · rw [chunks, hch]
            rw [chunks]
            simp
          · intro pm hpm
            rcases List.mem_cons.1 hpm with h | h
            · rw [h]
              exact hwfs (u, m) (List.mem_cons_self _ _)
            · exact hwfs pm (List.mem_cons_of_mem _ h)
          · constructor
            · intro v w hw hwne
              cases v with
              | nil =>
                have hww : w = c :: u := by simpa using hw.symm
                subst hww
                have harg : (c :: u) ++ fullStr m ++ chunks ps'' tail' =
                    c :: cs := by
                  rw [hch, chunks]
                  simp
                rw [harg]
                exact hma
              | cons c' v' =>
                rw [List.cons_append] at hw
                injection hw with h1 h2
                exact (hgf.1) v' w h2 hwne
            · exact hgf.2
          · simp only [List.map_cons] at hmap ⊢
            exact hmap

theorem replaceAllGo_fuel (old new : List Char) (hold : old ≠ []) :
    ∀ (fuel fuel' : Nat) (s : List Char), s.length ≤ fuel → s.length ≤ fuel' →
    replaceAllGo old new fuel s = replaceAllGo old new fuel' s
  | fuel, fuel', [], hf, hf' => by
    cases fuel <;> cases fuel' <;>
      simp [replaceAllGo_zero, replaceAllGo_succ_nil]
  | fuel, fuel', c :: cs, hf, hf' => by
    cases fuel with
    | zero => simp at hf
    | succ f =>
      cases fuel' with
      | zero => simp at hf'
      | succ f' =>
        rw [replaceAllGo_succ_cons, replaceAllGo_succ_cons]
        by_cases hp : old.isPrefixOf (c :: cs) = true
        · rw [if_pos hp, if_pos hp]
          rcases List.isPrefixOf_iff_prefix.1 hp with ⟨t, ht⟩
          have hdrop : (c :: cs).drop old.length = t := by
            rw [← ht, List.drop_left]
          rw [hdrop]
          have htlen : t.length ≤ cs.length := by
            have h := congrArg List.length ht
            have hol : 1 ≤ old.length := List.length_pos.2 hold
            simp at h
            omega
          rw [replaceAllGo_fuel old new hold f f' t (by simp at hf; omega)
            (by simp at hf'; omega)]
        · rw [if_neg hp, if_neg hp,
            replaceAllGo_fuel old new hold f f' cs (by simpa using hf)
              (by simpa using hf')]

theorem replaceAllGo_seg (old new : List Char) (hold : old ≠ []) :
    ∀ (seg rest : List Char) (fuel : Nat), (seg ++ rest).length ≤ fuel →
    (∀ v w : List Char, seg = v ++ w → w ≠ [] → ¬ old <+: (w ++ rest)) →
    replaceAllGo old new fuel (seg ++ rest) =
      seg ++ replaceAllGo old new rest.length rest
  | [], rest, fuel, hf, _ => by
    rw [List.nil_append, List.nil_append]
    exact replaceAllGo_fuel old new hold fuel rest.length rest
      (by simpa using hf) (le_refl _)
  | c :: seg', rest, fuel, hf, hocc => by
    cases fuel with
    | zero => simp at hf
    | succ f =>
      rw [List.cons_append, replaceAllGo_succ_cons,
        if_neg (fun hp => hocc [] (c :: seg') rfl (List.cons_ne_nil c seg')
          (by
            rw [List.cons_append]
            exact List.isPrefixOf_iff_prefix.1 hp)),
        replaceAllGo_seg old new hold seg' rest f (by simp at hf ⊢; omega)
          (fun v w hw hwne => hocc (c :: v) w (by rw [hw]; rfl) hwne)]
      rfl

theorem replaceAllGo_self (old : List Char) (hold : old ≠ []) :
    ∀ (fuel : Nat) (s : List Char),
    replaceAllGo old old fuel s = s
  | 0, s => replaceAllGo_zero old old s
  | fuel + 1, [] => replaceAllGo_succ_nil old old fuel
  | fuel + 1, c :: cs => by
    rw [replaceAllGo_succ_cons]
    by_cases hp : old.isPrefixOf (c :: cs) = true
    · rw [if_pos hp]
      rcases List.isPrefixOf_iff_prefix.1 hp with ⟨t, ht⟩
      have hdrop : (c :: cs).drop old.length = t := by
        rw [← ht, List.drop_left]
      rw [hdrop, replaceAllGo_self old hold fuel t, ht]
    · rw [if_neg hp, replaceAllGo_self old hold fuel cs]

theorem no_inner_full_full (m m' : RMatch) (hwfm : matchWF m) (hwf' : matchWF m')
    (w z y : List Char) (hwne : w ≠ []) (hwlt : w.length < (fullStr m).length)
    (heq : fullStr m ++ z = w ++ (fullStr m' ++ y)) : False := by
  refine no_inner_require m.q1 m.q3 (m.mid ++ targetFilename) hwfm.1 hwfm.2.1
    (fullStr_B_nonquote m hwfm) (fullStr_no_require_suffix m) m'.q1 hwf'.1
    w z (((m'.mid ++ targetFilename) ++ [m'.q3, ')']) ++ y) hwne ?_ ?_
  · rw [← fullStr_shape m]
    exact hwlt
  · rw [← fullStr_shape m, heq, fullStr_shape m']
    simp

theorem no_inner_full_R (p : List Char) (m : RMatch) (hwfm : matchWF m)
    (w z y : List Char) (hwne : w ≠ []) (hwlt : w.length < (fullStr m).length)
    (heq : fullStr m ++ z =
      w ++ ((requireOpen ++ squote :: (p ++ [squote, ')'])) ++ y)) : False := by
  refine no_inner_require m.q1 m.q3 (m.mid ++ targetFilename) hwfm.1 hwfm.2.1
    (fullStr_B_nonquote m hwfm) (fullStr_no_require_suffix m) squote (by decide)
    w z ((p ++ [squote, ')']) ++ y) hwne ?_ ?_
  · rw [← fullStr_shape m]
    exact hwlt
  · rw [← fullStr_shape m, heq]
    simp

theorem no_inner_R_full (p : List Char) (hp : ∀ c ∈ p, isQuote c = false)
    (hpsuf : ∀ w : List Char, p ≠ w ++ requireOpen) (m' : RMatch)
    (hwf' : matchWF m') (w z y : List Char) (hwne : w ≠ [])
    (hwlt : w.length < (requireOpen ++ squote :: (p ++ [squote, ')'])).length)
    (heq : (requireOpen ++ squote :: (p ++ [squote, ')'])) ++ z =
      w ++ (fullStr m' ++ y)) : False := by
  refine no_inner_require squote squote p (by decide) (by decide) hp hpsuf
    m'.q1 hwf'.1 w z (((m'.mid ++ targetFilename) ++ [m'.q3, ')']) ++ y)
    hwne hwlt ?_
  rw [heq, fullStr_shape m']
  simp

theorem replaceAllGo_head (old new rest : List Char) (hold : old ≠ [])
    (fuel : Nat) (hf : (old ++ rest).length ≤ fuel) :
    replaceAllGo old new fuel (old ++ rest) =
      new ++ replaceAllGo old new rest.length rest := by
  cases fuel with
  | zero =>
    exfalso
    have h1 : 1 ≤ old.length := List.length_pos.2 hold
    have h2 := hf
    rw [List.length_append] at h2
    omega
  | succ f =>
    cases hco : old with
    | nil => exact absurd hco hold
    | cons o old' =>
      subst hco
      rw [List.cons_append, replaceAllGo_succ_cons,
        if_pos (List.isPrefixOf_iff_prefix.2 ⟨rest, by simp⟩)]
      have hdrop : (o :: (old' ++ rest)).drop (o :: old').length = rest := by
        rw [show o :: (old' ++ rest) = (o :: old') ++ rest from by simp,
          List.drop_left]
      rw [hdrop,
        replaceAllGo_fuel (o :: old') new (by simp) f rest.length rest
          (by simp at hf ⊢; omega) (le_refl _)]

theorem replace_step (p R : List Char)
    (hR : R = requireOpen ++ squote :: (p ++ [squote, ')']))
    (hp : ∀ c ∈ p, isQuote c = false)
    (hpsuf : ∀ w : List Char, p ≠ w ++ requireOpen)
    (mstar : RMatch) (hwfstar : matchWF mstar)
    (hne : fullStr mstar ≠ R) :
    ∀ (ps : List (List Char × RMatch)) (tail : List Char)
      (done : List (List Char)) (fuel : Nat),
    (∀ pm ∈ ps, matchWF pm.2) → GapsFail ps tail →
    (chunksUpTo R done ps tail).length ≤ fuel →
    replaceAllGo (fullStr mstar) R fuel (chunksUpTo R done ps tail) =
      chunksUpTo R (fullStr mstar :: done) ps tail
  | [], tail, done, fuel, hwfs, hgf, hf => by
    rw [chunksUpTo] at hf ⊢
    rw [chunksUpTo]
    rw [GapsFail] at hgf
    refine replaceAllGo_no_occ (fullStr mstar) R fuel tail hf ?_
    intro v w hvw hpre
    rcases hpre with ⟨z, hz⟩
    have hfail := hgf v w hvw
    rw [← hz, matchAt_complete mstar z hwfstar] at hfail
    exact Option.noConfusion hfail
  | (u, m) :: ps', tail, done, fuel, hwfs, hgf, hf => by
    rw [GapsFail] at hgf
    obtain ⟨hgap, hgf'⟩ := hgf
    have hwfm : matchWF m := hwfs (u, m) (List.mem_cons_self _ _)
    have hwfs' : ∀ pm ∈ ps', matchWF pm.2 :=
      fun pm h => hwfs pm (List.mem_cons_of_mem _ h)
    rw [chunksUpTo] at hf ⊢
    rw [chunksUpTo]
    rw [List.append_assoc] at hf
    rw [List.append_assoc, List.append_assoc]
    have hgapfact : ∀ v w : List Char, u = v ++ w → w ≠ [] →
        ¬ fullStr mstar <+:
          (w ++ ((if fullStr m ∈ done then R else fullStr m) ++
            chunksUpTo R done ps' tail)) := by
      intro v w hvw hwne hpre
      rcases hpre with ⟨z, hz⟩
      rcases le_or_lt (fullStr mstar).length w.length with hle | hlt
      · rcases append_eq_extract hz.symm hle with ⟨w', hw'1, hw'2⟩
        have hfail := hgap v w hvw hwne
        rw [hw'1,
          show (fullStr mstar ++ w') ++ fullStr m ++ chunks ps' tail =
            fullStr mstar ++ (w' ++ (fullStr m ++ chunks ps' tail)) from by simp,
          matchAt_complete mstar _ hwfstar] at hfail
        exact Option.noConfusion hfail
      · by_cases hmem : fullStr m ∈ done
        · rw [if_pos hmem] at hz
          exact no_inner_full_R p mstar hwfstar w z
            (chunksUpTo R done ps' tail) hwne hlt (by rw [← hR]; exact hz)
        · rw [if_neg hmem] at hz
          exact no_inner_full_full mstar m hwfstar hwfm w z
            (chunksUpTo R done ps' tail) hwne hlt hz
    rw [replaceAllGo_seg (fullStr mstar) R (fullStr_ne_nil mstar) u _ fuel hf
      hgapfact]
    by_cases hmem : fullStr m ∈ done
    · have hmem' : fullStr m ∈ fullStr mstar :: done :=
        List.mem_cons_of_mem _ hmem
      rw [if_pos hmem, if_pos hmem']
      have hslotwalk : ∀ v w : List Char, R = v ++ w → w ≠ [] →
          ¬ fullStr mstar <+: (w ++ chunksUpTo R done ps' tail) := by
        intro v w hvw hwne hpre
        rcases hpre with ⟨z, hz⟩
        cases v with
        | nil =>
          have hw : w = R := by simpa using hvw.symm
          rw [hw] at hz
          have heq := same_start_with_R p hp mstar hwfstar z
            (chunksUpTo R done ps' tail) (by rw [← hR]; exact hz)
          exact hne (by rw [heq, hR])
        | cons d v' =>
          refine no_inner_R_full p hp hpsuf mstar hwfstar (d :: v')
            (chunksUpTo R done ps' tail) z (by simp) ?_ ?_
          · rw [← hR, hvw, List.length_append]
            have hwpos : 0 < w.length := List.length_pos.2 hwne
            omega
          · rw [← hR]
            calc R ++ chunksUpTo R done ps' tail
                = (d :: v' ++ w) ++ chunksUpTo R done ps' tail := by rw [← hvw]
              _ = d :: v' ++ (w ++ chunksUpTo R done ps' tail) := by simp
              _ = d :: v' ++ (fullStr mstar ++ z) := by rw [← hz]
      rw [replaceAllGo_seg (fullStr mstar) R (fullStr_ne_nil mstar) R _ _
        (le_refl _) hslotwalk,
        replace_step p R hR hp hpsuf mstar hwfstar hne ps' tail done _
          hwfs' hgf' (le_refl _)]
    · rw [if_neg hmem]
      by_cases heqm : fullStr mstar = fullStr m
      · have hmem' : fullStr m ∈ fullStr mstar :: done := by
          rw [← heqm]
          exact List.mem_cons_self _ _
        rw [if_pos hmem', ← heqm,
          replaceAllGo_head (fullStr mstar) R _ (fullStr_ne_nil mstar) _
            (le_refl _),
          replace_step p R hR hp hpsuf mstar hwfstar hne ps' tail done _
            hwfs' hgf' (le_refl _)]
      · have hmem' : fullStr m ∉ fullStr mstar :: done := by
          intro h
          rcases List.mem_cons.1 h with h | h
          · exact heqm h.symm
          · exact hmem h
        rw [if_neg hmem']
        have hslotwalk : ∀ v w : List Char, fullStr m = v ++ w → w ≠ [] →
            ¬ fullStr mstar <+: (w ++ chunksUpTo R done ps' tail) := by
          intro v w hvw hwne hpre
          rcases hpre with ⟨z, hz⟩
          cases v with
          | nil =>
            have hw : w = fullStr m := by simpa using hvw.symm
            subst hw
            exact heqm (same_start_full mstar m hwfstar hwfm z
              (chunksUpTo R done ps' tail) hz)
          | cons d v' =>
            refine no_inner_full_full m mstar hwfm hwfstar (d :: v')
              (chunksUpTo R done ps' tail) z (by simp) ?_ ?_
            · rw [hvw, List.length_append]
              have hwpos : 0 < w.length := List.length_pos.2 hwne
              omega
            · rw [hvw, List.append_assoc, hz]
        rw [replaceAllGo_seg (fullStr mstar) R (fullStr_ne_nil mstar)
          (fullStr m) _ _ (le_refl _) hslotwalk,
          replace_step p R hR hp hpsuf mstar hwfstar hne ps' tail done _
            hwfs' hgf' (le_refl _)]

theorem chunksUpTo_nil_done (R : List Char) :
    ∀ (ps : List (List Char × RMatch)) (tail : List Char),
    chunksUpTo R [] ps tail = chunks ps tail
  | [], tail => by rw [chunksUpTo, chunks]
  | (u, m) :: ps', tail => by
    rw [chunksUpTo, chunks, chunksUpTo_nil_done R ps' tail,
      if_neg (List.not_mem_nil _)]

theorem chunksUpTo_cons_self (R : List Char) (done : List (List Char)) :
    ∀ (ps : List (List Char × RMatch)) (tail : List Char),
    chunksUpTo R (R :: done) ps tail = chunksUpTo R done ps tail
  | [], tail => by rw [chunksUpTo, chunksUpTo]
  | (u, m) :: ps', tail => by
    rw [chunksUpTo, chunksUpTo, chunksUpTo_cons_self R done ps' tail]
    by_cases hmem : fullStr m ∈ done
    · rw [if_pos hmem, if_pos (List.mem_cons_of_mem _ hmem)]
    · by_cases hfm : fullStr m = R
      · rw [if_neg hmem, if_pos (by rw [hfm]; exact List.mem_cons_self _ _), hfm]
      · rw [if_neg hmem, if_neg ?_]
        intro h
        rcases List.mem_cons.1 h with h | h
        · exact hfm h
        · exact hmem h

theorem chunksUpTo_all_done (R : List Char) (done : List (List Char)) :
    ∀ (ps : List (List Char × RMatch)) (tail : List Char),
    (∀ pm ∈ ps, fullStr pm.2 ∈ done) →
    chunksUpTo R done ps tail = chunksWith R ps tail
  | [], tail, _ => by rw [chunksUpTo, chunksWith]
  | (u, m) :: ps', tail, h => by
    rw [chunksUpTo, chunksWith,
      chunksUpTo_all_done R done ps' tail
        (fun pm hm => h pm (List.mem_cons_of_mem _ hm)),
      if_pos (h (u, m) (List.mem_cons_self _ _))]

theorem chunks_occurrence :
    ∀ (ps : List (List Char × RMatch)) (tail : List Char)
      (pm : List Char × RMatch), pm ∈ ps →
    ∃ x y, chunks ps tail = x ++ fullStr pm.2 ++ y
  | (u, m) :: ps', tail, pm, hm => by
    rcases List.mem_cons.1 hm with h | h
    · subst h
      exact ⟨u, chunks ps' tail, by rw [chunks]⟩
    · rcases chunks_occurrence ps' tail pm h with ⟨x, y, hxy⟩
      exact ⟨u ++ fullStr m ++ x, y, by rw [chunks, hxy]; simp⟩

theorem pyReplace_chunksUpTo (p R : List Char)
    (hR : R = requireOpen ++ squote :: (p ++ [squote, ')']))
    (hp : ∀ c ∈ p, isQuote c = false)
    (hpsuf : ∀ w : List Char, p ≠ w ++ requireOpen)
    (mstar : RMatch) (hwfstar : matchWF mstar)
    (ps : List (List Char × RMatch)) (tail : List Char)
    (done : List (List Char))
    (hwfs : ∀ pm ∈ ps, matchWF pm.2) (hgf : GapsFail ps tail) :
    pyReplace (chunksUpTo R done ps tail) (fullStr mstar) R =
      chunksUpTo R (fullStr mstar :: done) ps tail := by
  by_cases hne : fullStr mstar = R
  · rw [pyReplace, hne,
      replaceAllGo_self R (by rw [hR]; simp [requireOpen]),
      chunksUpTo_cons_self]
  · exact replace_step p R hR hp hpsuf mstar hwfstar hne ps tail done _
      hwfs hgf (le_refl _)

theorem foldl_replace (p R : List Char)
    (hR : R = requireOpen ++ squote :: (p ++ [squote, ')']))
    (hp : ∀ c ∈ p, isQuote c = false)
    (hpsuf : ∀ w : List Char, p ≠ w ++ requireOpen) :
    ∀ (L : List (Nat × RMatch)) (ps : List (List Char × RMatch))
      (tail : List Char) (done : List (List Char)),
    (∀ q ∈ L, matchWF q.2) → (∀ pm ∈ ps, matchWF pm.2) → GapsFail ps tail →
    L.foldl (fun acc q => pyReplace acc (fullStr q.2) R)
        (chunksUpTo R done ps tail) =
      chunksUpTo R ((L.map (fun q => fullStr q.2)).reverse ++ done) ps tail
  | [], ps, tail, done, _, _, _ => by simp
  | q :: L', ps, tail, done, hL, hwfs, hgf => by
    have hdl : (((q :: L').map (fun q => fullStr q.2)).reverse ++ done)
        = (L'.map (fun q => fullStr q.2)).reverse ++ (fullStr q.2 :: done) := by
      simp
    rw [hdl, List.foldl_cons,
      pyReplace_chunksUpTo p R hR hp hpsuf q.2
        (hL q (List.mem_cons_self _ _)) ps tail done hwfs hgf,
      foldl_replace p R hR hp hpsuf L' ps tail (fullStr q.2 :: done)
        (fun r hr => hL r (List.mem_cons_of_mem _ hr)) hwfs hgf]

theorem foldl_replace_self (R : List Char) (hRne : R ≠ []) :
    ∀ (L : List (Nat × RMatch)) (acc : List Char),
    (∀ q ∈ L, fullStr q.2 = R) →
    L.foldl (fun acc q => pyReplace acc (fullStr q.2) R) acc = acc
  | [], acc, _ => by simp
  | q :: L', acc, h => by
    have hps : pyReplace acc R R = acc :=
      replaceAllGo_self R hRne acc.length acc
    rw [List.foldl_cons, h q (List.mem_cons_self _ _), hps,
      foldl_replace_self R hRne L' acc
        (fun r hr => h r (List.mem_cons_of_mem _ hr))]

theorem matches_of_chunksWith (p R : List Char)
    (hR : R = requireOpen ++ squote :: (p ++ [squote, ')']))
    (hp : ∀ c ∈ p, isQuote c = false)
    (hpsuf : ∀ w : List Char, p ≠ w ++ requireOpen)
    (m' : RMatch) (hwf' : matchWF m') :
    ∀ (ps : List (List Char × RMatch)) (tail : List Char),
    GapsFail ps tail →
    ∀ x y : List Char, x ++ fullStr m' ++ y = chunksWith R ps tail →
    fullStr m' = R
  | [], tail, hgf, x, y, hocc => by
    rw [GapsFail] at hgf
    rw [chunksWith] at hocc
    exfalso
    have hnone := hgf x (fullStr m' ++ y) (by rw [← hocc]; simp)
    rw [matchAt_complete m' y hwf'] at hnone
    exact Option.noConfusion hnone
  | (u, m) :: ps', tail, hgf, x, y, hocc => by
    rw [GapsFail] at hgf
    obtain ⟨hgap, hgf'⟩ := hgf
    rw [chunksWith] at hocc
    rcases le_or_lt u.length x.length with hxu | hxu
    · rcases append_eq_extract
        (show x ++ (fullStr m' ++ y) =
          u ++ (R ++ chunksWith R ps' tail) by simpa using hocc) hxu
        with ⟨x', hx1, hx2⟩
      cases x' with
      | nil =>
        rw [List.nil_append] at hx2
        rw [hR]
        exact same_start_with_R p hp m' hwf' y (chunksWith R ps' tail)
          (by rw [← hR]; exact hx2.symm)
      | cons d x'' =>
        rcases le_or_lt R.length (d :: x'').length with hRx | hRx
        · rcases append_eq_extract hx2.symm hRx with ⟨x₃, hx31, hx32⟩
          exact matches_of_chunksWith p R hR hp hpsuf m' hwf' ps' tail hgf'
            x₃ y (by simpa using hx32.symm)
        · exfalso
          refine no_inner_R_full p hp hpsuf m' hwf' (d :: x'')
            (chunksWith R ps' tail) y (by simp) (by rw [← hR]; exact hRx) ?_
          rw [← hR]
          exact hx2
    · exfalso
      rcases append_eq_extract
        (show u ++ (R ++ chunksWith R ps' tail) =
          x ++ (fullStr m' ++ y) by simpa using hocc.symm) (le_of_lt hxu)
        with ⟨w, hw1, hw2⟩
      have hwne : w ≠ [] := by
        intro h
        rw [h, List.append_nil] at hw1
        rw [hw1] at hxu
        exact lt_irrefl _ hxu
      rcases le_or_lt (fullStr m').length w.length with hFw | hFw
      · rcases append_eq_extract hw2.symm hFw with ⟨w₂, hw21, hw22⟩
        have hnone := hgap x w hw1 hwne
        rw [hw21,
          show (fullStr m' ++ w₂) ++ fullStr m ++ chunks ps' tail =
            fullStr m' ++ (w₂ ++ (fullStr m ++ chunks ps' tail)) from by simp,
          matchAt_complete m' _ hwf'] at hnone
        exact Option.noConfusion hnone
      · exact no_inner_full_R p m' hwf' w y (chunksWith R ps' tail) hwne hFw
          (by rw [← hR]; exact hw2)

theorem contentAfter_of_ne (cwd file_path correct_json_path content : List Char)
    (h : finditer content ≠ []) :
    contentAfter cwd file_path correct_json_path content =
      (finditer content).foldl
        (fun acc pm => pyReplace acc (fullStr pm.2)
          (replacementFor cwd file_path correct_json_path pm.2)) content := by
  rw [contentAfter, update_file]
  have hemp : (finditer content).isEmpty = false := by
    cases hm : finditer content with
    | nil => exact absurd hm h
    | cons a l => rfl
  simp [hemp]

/-- C4 (amended): provided the computed relative path contains no quote
character and does not end with the text `require(`, the per-file rewrite of
`update_file` is idempotent on content: for every file content, applying the
text transformation twice yields the same content as applying it once (the
second pass re-matches only the rewritten calls and replaces them by
identical bytes). -/
theorem update_file_idempotent
    (cwd file_path correct_json_path : List Char)
    (hq : ∀ c ∈ calculate_relative_path cwd file_path correct_json_path,
      isQuote c = false)
    (hsuf : ¬ requireOpen <:+
      calculate_relative_path cwd file_path correct_json_path)
    (content : List Char) :
    contentAfter cwd file_path correct_json_path
        (contentAfter cwd file_path correct_json_path content) =
      contentAfter cwd file_path correct_json_path content := by
  have hpsuf : ∀ w : List Char,
      calculate_relative_path cwd file_path correct_json_path ≠
        w ++ requireOpen :=
    fun w h => hsuf ⟨w, h.symm⟩
  set p := calculate_relative_path cwd file_path correct_json_path with hpd
  set R := requireOpen ++ squote :: (p ++ [squote, ')']) with hRd
  have hRne : R ≠ [] := by rw [hRd]; simp [requireOpen]
  have hrepl : ∀ m : RMatch,
      replacementFor cwd file_path correct_json_path m = R := by
    intro m
    rw [hRd, hpd]
    rfl
  by_cases h1 : finditer content = []
  · have hc1 : contentAfter cwd file_path correct_json_path content =
        content := by
      rw [contentAfter]
      simp [update_file, h1]
    rw [hc1]
    exact hc1
  · rcases findIterGo_chunks content.length content 0 (le_refl _)
      with ⟨ps, tail, hc, hwfs, hgf, hmap⟩
    have hmap' : (finditer content).map Prod.snd = ps.map Prod.snd := hmap
    have hLwf : ∀ q ∈ finditer content, matchWF q.2 := by
      intro q hqm
      have hq2 : q.2 ∈ (finditer content).map Prod.snd :=
        List.mem_map_of_mem _ hqm
      rw [hmap'] at hq2
      rcases List.mem_map.1 hq2 with ⟨pm, hpm, hpm2⟩
      rw [← hpm2]
      exact hwfs pm hpm
    have hc1 : contentAfter cwd file_path correct_json_path content =
        chunksWith R ps tail := by
      rw [contentAfter_of_ne cwd file_path correct_json_path content h1]
      simp only [hrepl]
      cases hmsE : finditer content with
      | nil => exact absurd hmsE h1
      | cons q L' =>
        rw [show content = chunksUpTo R [] ps tail from by
            rw [chunksUpTo_nil_done]
            exact hc,
          foldl_replace p R hRd hq hpsuf (q :: L') ps tail []
            (by rw [← hmsE]; exact hLwf) hwfs hgf]
        refine chunksUpTo_all_done R _ ps tail ?_
        intro pm hpm
        have h1m : pm.2 ∈ ps.map Prod.snd := List.mem_map_of_mem _ hpm
        rw [← hmap', hmsE] at h1m
        rcases List.mem_map.1 h1m with ⟨r, hr, hr2⟩
        simp only [List.append_nil, List.mem_reverse]
        exact List.mem_map.2 ⟨r, hr, by rw [hr2]⟩
    rw [hc1]
    by_cases h2 : finditer (chunksWith R ps tail) = []
    · rw [contentAfter]
      simp [update_file, h2]
    · have hall : ∀ r ∈ finditer (chunksWith R ps tail), fullStr r.2 = R := by
        intro r hr
        rcases findIterGo_chunks (chunksWith R ps tail).length
          (chunksWith R ps tail) 0 (le_refl _)
          with ⟨ps2, tail2, hc2, hwfs2, hgf2, hmap2⟩
        have hmap2' : (finditer (chunksWith R ps tail)).map Prod.snd =
            ps2.map Prod.snd := hmap2
        have hm2 : r.2 ∈ ps2.map Prod.snd := by
          rw [← hmap2']
          exact List.mem_map_of_mem _ hr
        rcases List.mem_map.1 hm2 with ⟨pm, hpm, hpm2⟩
        rcases chunks_occurrence ps2 tail2 pm hpm with ⟨x, y, hxy⟩
        rw [← hpm2]
        exact matches_of_chunksWith p R hRd hq hpsuf pm.2 (hwfs2 pm hpm)
          ps tail hgf x y (by rw [← hxy, ← hc2])
      rw [contentAfter_of_ne cwd file_path correct_json_path _ h2]
      simp only [hrepl]
      exact foldl_replace_self R hRne (finditer (chunksWith R ps tail)) _ hall

theorem update_file_idempotent_witness :
    (∀ c ∈ calculate_relative_path (("/").data) (("/a/b.js").data)
        (("/a/m.json").data), isQuote c = false) ∧
    (¬ requireOpen <:+ calculate_relative_path (("/").data) (("/a/b.js").data)
        (("/a/m.json").data)) ∧
    contentAfter (("/").data) (("/a/b.js").data) (("/a/m.json").data)
        (contentAfter (("/").data) (("/a/b.js").data) (("/a/m.json").data)
          (("x = require(").data ++ squote ::
            (("./medicaid_rules_2025.json").data ++ squote :: (");").data))) =
      contentAfter (("/").data) (("/a/b.js").data) (("/a/m.json").data)
        (("x = require(").data ++ squote ::
          (("./medicaid_rules_2025.json").data ++ squote :: (");").data)) :=
  ⟨by decide, by decide,
    update_file_idempotent (("/").data) (("/a/b.js").data) (("/a/m.json").data)
      (by decide) (by decide)
      (("x = require(").data ++ squote ::
        (("./medicaid_rules_2025.json").data ++ squote :: (");").data))⟩
